import Mathlib

/-!
Verification of the PlistJsonConverter core against its specification.

The program converts documents between the plist and JSON formats through a
generic in-memory tree value.  The source file `plist_json_convert.py` holds
two commands: `PlistToJsonCommand` (plist text → tree → JSON text via
`json.dumps(..., sort_keys=True, indent=4, separators=(',', ': '),
ensure_ascii=False)`) and `JsonToPlistCommand` (JSON-with-comments text →
sanitizer → `json.loads` → tree → plist XML text via
`plistlib.writePlistToBytes`).  The sanitizer (`file_strip/json.sanitize_json`)
and the strict plist encoder/decoder are modelled here as well: the sanitizer
from the specification's algorithm (its source ships outside the provided
tree), the plist library functions from the documented behaviour of the
external collaborator (Python `plistlib`).
-/

namespace PlistJson

/-- Generic tree value: the tagged union produced by `plistlib.readPlist`
and by `json.loads`, shared by both conversion directions.  `data` holds a
byte sequence (plist `<data>`), `date` a timestamp rendered by its ISO-8601
text (plist `<date>`); mappings are association lists in source order
(Python `dict` content; Python dict equality is order-insensitive, captured
below by `pyEq`).  Numbers are modelled as integers; floating-point values
are outside the model. -/
inductive TreeValue where
  | null
  | bool (b : Bool)
  | int (n : Int)
  | str (s : String)
  | data (bytes : List Nat)
  | date (stamp : String)
  | array (items : List TreeValue)
  | dict (entries : List (String × TreeValue))
  deriving Inhabited

/-- Lower-case hexadecimal digit, as produced by Python's %04x formatting. -/
def hexDigitChar (n : Nat) : Char :=
  if n < 10 then Char.ofNat (48 + n) else Char.ofNat (87 + n)

/-- Decimal digits of `n`, most significant first, accumulated into `acc`;
`fuel` bounds the recursion (any `fuel ≥ n` yields every digit). -/
def natToDecAux : Nat → Nat → List Char → List Char
  | 0, _, acc => acc
  | fuel + 1, n, acc =>
      if n = 0 then acc else natToDecAux fuel (n / 10) (hexDigitChar (n % 10) :: acc)

/-- Decimal text of a natural number (Python's `%d`). -/
def natToDec (n : Nat) : List Char :=
  if n = 0 then ['0'] else natToDecAux n n []

/-- Decimal text of an integer, `-` prefixed when negative (Python's
rendering of `int`). -/
def intToDec (n : Int) : List Char :=
  if n < 0 then '-' :: natToDec (-n).toNat else natToDec n.toNat

/-- Model of CPython `json.encoder.py_encode_basestring` (the
`ensure_ascii=False` string escaper): escape the quote, the backslash and
control characters below 0x20 (short escapes for \b \t \n \f \r, `\u00xx`
otherwise); every other character passes through literally. -/
def escapeJsonChar (c : Char) : List Char :=
  if c = '"' then ['\\', '"']
  else if c = '\\' then ['\\', '\\']
  else if c = '\x08' then ['\\', 'b']
  else if c = '\x09' then ['\\', 't']
  else if c = '\x0a' then ['\\', 'n']
  else if c = '\x0c' then ['\\', 'f']
  else if c = '\x0d' then ['\\', 'r']
  else if c.toNat < 0x20 then
    ['\\', 'u', '0', '0', hexDigitChar (c.toNat / 16), hexDigitChar (c.toNat % 16)]
  else [c]

/-- JSON string literal for `s`: quote, escaped characters, quote. -/
def encodeJsonString (s : String) : List Char :=
  '"' :: s.data.flatMap escapeJsonChar ++ ['"']

/-- Indentation produced by `json.dumps(..., indent=4)` at nesting depth
`lvl`: `4 * lvl` spaces. -/
def indentChars (lvl : Nat) : List Char :=
  List.replicate (4 * lvl) ' '

/-- Newline followed by the indentation of depth `lvl` (the
`newline_indent` of CPython's `_make_iterencode`). -/
def newlineIndent (lvl : Nat) : List Char :=
  '\n' :: indentChars lvl

/-- Interpose `sep` between the rendered items of a container. -/
def joinSep (sep : List Char) : List (List Char) → List Char
  | [] => []
  | [x] => x
  | x :: y :: xs => x ++ sep ++ joinSep sep (y :: xs)

/-- Lexicographic code-point comparison of character lists: the order Python
uses to compare `str` values.  (Executable counterpart of Mathlib's order on
`String`; the two agree, see `strLe_iff_le`.) -/
def charsLe : List Char → List Char → Bool
  | [], _ => true
  | _ :: _, [] => false
  | a :: as, b :: bs =>
      if a.toNat < b.toNat then true
      else if b.toNat < a.toNat then false
      else charsLe as bs

/-- Python's `s₁ <= s₂` on text strings. -/
def strLe (a b : String) : Bool :=
  charsLe a.data b.data

/-- Order on keyed entries: compare by the key, the order
`sorted(d.items())` uses (a `dict` never holds two equal keys, so the value
component is never compared).  `List.insertionSort` by this relation is a
stable sort by key, hence agrees with Python's stable `sorted`. -/
def keyRel {α : Type} (a b : String × α) : Prop :=
  strLe a.1 b.1 = true

instance {α : Type} : DecidableRel (keyRel (α := α)) :=
  fun a b => inferInstanceAs (Decidable (strLe a.1 b.1 = true))

/-- Sort keyed entries by key, stably: the model of `sorted(d.items())`. -/
def sortByKey {α : Type} (l : List (String × α)) : List (String × α) :=
  l.insertionSort keyRel

/-- Text of one rendered JSON array at depth `lvl`: opening bracket, items
separated by `','` plus newline-indent, closing bracket on its own indent. -/
def arrayBody (lvl : Nat) (rs : List (List Char)) : List Char :=
  '[' :: newlineIndent (lvl + 1) ++
    joinSep (',' :: newlineIndent (lvl + 1)) rs ++
    newlineIndent lvl ++ [']']

/-- One rendered JSON object member: encoded key, `': '`, rendered value. -/
def memberLine (p : String × List Char) : List Char :=
  encodeJsonString p.1 ++ ':' :: ' ' :: p.2

/-- Text of one rendered JSON object at depth `lvl`: the entries are emitted
sorted by key (`sort_keys=True`), separated by `','` plus newline-indent. -/
def dictBody (lvl : Nat) (rs : List (String × List Char)) : List Char :=
  '\x7b' :: newlineIndent (lvl + 1) ++
    joinSep (',' :: newlineIndent (lvl + 1)) ((sortByKey rs).map memberLine) ++
    newlineIndent lvl ++ ['\x7d']

mutual

/-- Model of `json.dumps(v, sort_keys=True, indent=4, separators=(',', ': '),
ensure_ascii=False)` — the exact call in `PlistToJsonCommand.convert` — at
nesting depth `lvl`.  `none` models the `TypeError` json.dumps raises on a
byte sequence or a timestamp (neither is JSON-serialisable).  Sorting the
rendered entries by key coincides with CPython's sorting of the items before
rendering, because rendering keeps the key and both sorts are stable. -/
def dumpsV (lvl : Nat) : TreeValue → Option (List Char)
  | .null => some "null".data
  | .bool b => some ((if b then "true" else "false").data)
  | .int n => some (intToDec n)
  | .str s => some (encodeJsonString s)
  | .data _ => none
  | .date _ => none
  | .array [] => some "[]".data
  | .array (v :: vs) => do
      let rs ← dumpsL (lvl + 1) (v :: vs)
      some (arrayBody lvl rs)
  | .dict [] => some "\x7b\x7d".data
  | .dict (e :: es) => do
      let rs ← dumpsKV (lvl + 1) (e :: es)
      some (dictBody lvl rs)

/-- Render each array item at depth `lvl`; fails when any item fails. -/
def dumpsL (lvl : Nat) : List TreeValue → Option (List (List Char))
  | [] => some []
  | v :: vs => do
      let r ← dumpsV lvl v
      let rs ← dumpsL lvl vs
      some (r :: rs)

/-- Render each dictionary value at depth `lvl`, keeping its key. -/
def dumpsKV (lvl : Nat) : List (String × TreeValue) → Option (List (String × List Char))
  | [] => some []
  | e :: es => do
      let r ← dumpsV lvl e.2
      let rs ← dumpsKV lvl es
      some ((e.1, r) :: rs)

end

/-- Model of `PlistToJsonCommand.convert`: the JSON text assigned to
`self.output`, or `none` when `json.dumps` raises and the command reports an
error. -/
def json_dumps (v : TreeValue) : Option String :=
  (dumpsV 0 v).map fun cs => ⟨cs⟩

/-! ### The plist writer (the external collaborator `plistlib`)

`JsonToPlistCommand.convert` runs `writePlistToBytes(self.json).decode('utf-8')`;
the functions below model the legacy `plistlib` XML writer it calls. -/

/-- Model of `plistlib._escape`: reject C0 control characters other than
tab, newline and carriage return (`ValueError`), normalise `\r\n` and `\r`
to `\n`, escape `&`, `<` and `>` as entities. -/
def plistEscape : List Char → Option (List Char)
  | [] => some []
  | '\x0d' :: '\x0a' :: cs => (plistEscape cs).map fun r => '\x0a' :: r
  | '\x0d' :: cs => (plistEscape cs).map fun r => '\x0a' :: r
  | c :: cs =>
      if c.toNat < 0x20 ∧ c ≠ '\x09' ∧ c ≠ '\x0a' then none
      else if c = '&' then (plistEscape cs).map fun r => "&amp;".data ++ r
      else if c = '<' then (plistEscape cs).map fun r => "&lt;".data ++ r
      else if c = '>' then (plistEscape cs).map fun r => "&gt;".data ++ r
      else (plistEscape cs).map fun r => c :: r

/-- The base64 alphabet. -/
def base64Char (n : Nat) : Char :=
  if n < 26 then Char.ofNat (65 + n)
  else if n < 52 then Char.ofNat (97 + (n - 26))
  else if n < 62 then Char.ofNat (48 + (n - 52))
  else if n = 62 then '+'
  else '/'

/-- base64 text of a byte sequence, one line (plistlib wraps its output at
76 columns; the wrapping is not modelled). -/
def base64Encode : List Nat → List Char
  | [] => []
  | [b₁] =>
      [base64Char (b₁ % 256 / 4), base64Char (b₁ % 4 * 16), '=', '=']
  | [b₁, b₂] =>
      [base64Char (b₁ % 256 / 4), base64Char (b₁ % 4 * 16 + b₂ % 256 / 16),
        base64Char (b₂ % 16 * 4), '=']
  | b₁ :: b₂ :: b₃ :: bs =>
      base64Char (b₁ % 256 / 4) :: base64Char (b₁ % 4 * 16 + b₂ % 256 / 16) ::
        base64Char (b₂ % 16 * 4 + b₃ % 256 / 64) :: base64Char (b₃ % 64) ::
          base64Encode bs

/-- Tab indentation of the plist writer at nesting depth `lvl`. -/
def plistIndent (lvl : Nat) : List Char :=
  List.replicate lvl '\x09'

/-- One output line at depth `lvl` (plistlib `PlistWriter.writeln`). -/
def plistLine (lvl : Nat) (line : List Char) : List Char :=
  plistIndent lvl ++ line ++ ['\n']

/-- `simple_element` with text content: `<tag>value</tag>` on one line. -/
def simpleElement (lvl : Nat) (tag : String) (value : List Char) : List Char :=
  plistLine lvl ('<' :: tag.data ++ '>' :: value ++ '<' :: '/' :: tag.data ++ ['>'])

/-- `simple_element` without content: `<tag/>` on one line. -/
def emptyElement (lvl : Nat) (tag : String) : List Char :=
  plistLine lvl ('<' :: tag.data ++ ['/', '>'])

mutual

/-- Model of plistlib `PlistWriter.writeValue`.  `none` models the
exceptions the writer raises: `TypeError` on `None` (no plist equivalent)
and on out-of-range integers, `ValueError` on strings with forbidden
control characters.  Where Python sorts `d.items()` before rendering, the
model renders and then sorts stably by key — the same output, since
rendering keeps the key. -/
def plistWriteV (lvl : Nat) : TreeValue → Option (List Char)
  | .null => none
  | .bool b => some (emptyElement lvl (if b then "true" else "false"))
  | .int n =>
      if -(2 ^ 63 : Int) ≤ n ∧ n < 2 ^ 64 then
        some (simpleElement lvl "integer" (intToDec n))
      else none
  | .str s => (plistEscape s.data).map fun v => simpleElement lvl "string" v
  | .data bs =>
      some (plistLine lvl "<data>".data ++
        (if bs.isEmpty then [] else plistLine lvl (base64Encode bs)) ++
        plistLine lvl "</data>".data)
  | .date stamp => some (simpleElement lvl "date" stamp.data)
  | .array [] => some (emptyElement lvl "array")
  | .array (v :: vs) => do
      let body ← plistWriteL (lvl + 1) (v :: vs)
      some (plistLine lvl "<array>".data ++ body ++ plistLine lvl "</array>".data)
  | .dict [] => some (emptyElement lvl "dict")
  | .dict (e :: es) => do
      let rs ← plistWriteKV (lvl + 1) (e :: es)
      some (plistLine lvl "<dict>".data ++
        ((sortByKey rs).map Prod.snd).flatten ++ plistLine lvl "</dict>".data)

/-- Concatenated rendering of the items of an array. -/
def plistWriteL (lvl : Nat) : List TreeValue → Option (List Char)
  | [] => some []
  | v :: vs => do
      let r ← plistWriteV lvl v
      let rs ← plistWriteL lvl vs
      some (r ++ rs)

/-- For each entry, its key and the text of its `<key>` line followed by
its rendered value. -/
def plistWriteKV (lvl : Nat) : List (String × TreeValue) → Option (List (String × List Char))
  | [] => some []
  | e :: es => do
      let k ← plistEscape e.1.data
      let r ← plistWriteV lvl e.2
      let rs ← plistWriteKV lvl es
      some ((e.1, plistLine lvl ("<key>".data ++ k ++ "</key>".data) ++ r) :: rs)

end

/-- The fixed XML prolog `plistlib` writes before the root value. -/
def plistHeader : String :=
  "<?xml version=\"1.0\" encoding=\"UTF-8\"?>\n<!DOCTYPE plist PUBLIC \"-//Apple//DTD PLIST 1.0//EN\" \"http://www.apple.com/DTDs/PropertyList-1.0.dtd\">\n<plist version=\"1.0\">\n"

/-- Model of `JsonToPlistCommand.convert`: the plist text assigned to
`self.output` (`writePlistToBytes(self.json).decode('utf-8')`), or `none`
when the writer raises and the command reports an error. -/
def plist_dumps (v : TreeValue) : Option String := do
  let body ← plistWriteV 0 v
  some (plistHeader ++ (⟨body⟩ : String) ++ "</plist>\n")

/-! ### The sanitizer

`JsonToPlistCommand.read_buffer` calls `sanitize_json(view_text, True)`.
The sanitizer lives in `PlistJsonConverterLib/file_strip/json.py`, which is
not part of the provided tree, so it is modelled from §4.1 of the spec. -/

/-- Error for source text whose block comment never closes. -/
inductive MalformedInputError where
  | unterminatedComment
  deriving Repr, DecidableEq, Inhabited

mutual

/-- Modelled from the spec: the comment-stripping pass of `sanitize_json`
(missing source `file_strip/json.py`), scanning outside any string literal.
`//` deletes up to the next line terminator (exclusive), `/*` up to the
matching `*/` (inclusive); an unterminated block comment is fatal; a quote
enters a string literal. -/
def scOutside : List Char → Except MalformedInputError (List Char)
  | [] => .ok []
  | '/' :: '/' :: cs => scLine cs
  | '/' :: '*' :: cs => scBlock cs
  | '"' :: cs => (scInside cs).map fun r => '"' :: r
  | c :: cs => (scOutside cs).map fun r => c :: r

/-- Modelled from the spec: the comment-stripping pass inside a string
literal: every character passes through; a backslash escapes the following
character (so an escaped quote does not end the literal); an unescaped
quote returns to code. -/
def scInside : List Char → Except MalformedInputError (List Char)
  | [] => .ok []
  | '\\' :: c :: cs => (scInside cs).map fun r => '\\' :: c :: r
  | '"' :: cs => (scOutside cs).map fun r => '"' :: r
  | c :: cs => (scInside cs).map fun r => c :: r

/-- Modelled from the spec: inside a `//` comment, characters are dropped
up to (not including) the line terminator. -/
def scLine : List Char → Except MalformedInputError (List Char)
  | [] => .ok []
  | '\x0a' :: cs => (scOutside cs).map fun r => '\x0a' :: r
  | '\x0d' :: cs => (scOutside cs).map fun r => '\x0d' :: r
  | _ :: cs => scLine cs

/-- Modelled from the spec: inside a `/* */` comment, characters are
dropped up to and including the closing `*/`; reaching the end of input
first is the fatal unterminated-block-comment case. -/
def scBlock : List Char → Except MalformedInputError (List Char)
  | [] => .error .unterminatedComment
  | '*' :: '/' :: cs => scOutside cs
  | _ :: cs => scBlock cs

end

/-- JSON whitespace. -/
def isJsonWs (c : Char) : Bool :=
  c = ' ' || c = '\x09' || c = '\x0a' || c = '\x0d'

/-- Does a closing `]` or `\x7d` follow after only whitespace? -/
def closesAfterWs (cs : List Char) : Bool :=
  match cs.dropWhile isJsonWs with
  | ']' :: _ => true
  | '\x7d' :: _ => true
  | _ => false

mutual

/-- Modelled from the spec: the trailing-comma pass of `sanitize_json`,
run on comment-stripped text, outside any string literal: a comma followed
(ignoring only whitespace) by a closing `]` or `\x7d` is deleted. -/
def tcOutside : List Char → List Char
  | [] => []
  | ',' :: cs => if closesAfterWs cs then tcOutside cs else ',' :: tcOutside cs
  | '"' :: cs => '"' :: tcInside cs
  | c :: cs => c :: tcOutside cs

/-- Modelled from the spec: the trailing-comma pass inside a string
literal: commas (and everything else) pass through; escapes as in
`scInside`. -/
def tcInside : List Char → List Char
  | [] => []
  | '\\' :: c :: cs => '\\' :: c :: tcInside cs
  | '"' :: cs => '"' :: tcOutside cs
  | c :: cs => c :: tcInside cs

end

/-- Modelled from the spec: `sanitize_json(text, strip_trailing_commas)`
(missing source `file_strip/json.py`): strip comments, then, when the flag
is set, strip trailing commas on the comment-stripped text. -/
def sanitize_json (text : String) (stripCommas : Bool) :
    Except MalformedInputError String :=
  (scOutside text.data).map fun cs =>
    ⟨if stripCommas then tcOutside cs else cs⟩

/-! ### The strict JSON parser (the external collaborator `json.loads`)

`JsonToPlistCommand.read_buffer` feeds the sanitized text to `json.loads`.
The model covers the JSON grammar with integer numbers; fractional and
exponent parts, and `\\u` escapes naming surrogate halves, are outside the
model (no claim exercises them). -/

/-- Skip JSON whitespace. -/
def skipWs (cs : List Char) : List Char :=
  cs.dropWhile isJsonWs

/-- Decimal digit? -/
def isDigitCh (c : Char) : Bool :=
  48 ≤ c.toNat && c.toNat ≤ 57

/-- Value of a decimal digit. -/
def digitVal (c : Char) : Nat :=
  c.toNat - 48

/-- Greedily read decimal digits onto an accumulator. -/
def parseDigits : List Char → Nat → Nat × List Char
  | [], acc => (acc, [])
  | c :: cs, acc =>
      if isDigitCh c then parseDigits cs (10 * acc + digitVal c) else (acc, c :: cs)

/-- A JSON natural number: `0`, or a nonzero digit followed by digits
(leading zeros stop the number, as in the strict grammar). -/
def parseNatJson : List Char → Option (Nat × List Char)
  | [] => none
  | '0' :: cs => some (0, cs)
  | c :: cs => if isDigitCh c then some (parseDigits cs (digitVal c)) else none

/-- Hexadecimal digit? -/
def isHexDigitCh (c : Char) : Bool :=
  (48 ≤ c.toNat && c.toNat ≤ 57) || (97 ≤ c.toNat && c.toNat ≤ 102) ||
    (65 ≤ c.toNat && c.toNat ≤ 70)

/-- Value of a hexadecimal digit. -/
def hexVal (c : Char) : Nat :=
  if c.toNat ≤ 57 then c.toNat - 48
  else if 97 ≤ c.toNat then c.toNat - 87
  else c.toNat - 55

/-- The rest of a JSON string literal after the opening quote: unescape
until the closing quote, rejecting raw control characters (strict mode)
and malformed escapes.  Returns the decoded content and the text after the
closing quote. -/
def parseJString : List Char → Option (List Char × List Char)
  | [] => none
  | '"' :: cs => some ([], cs)
  | '\\' :: 'u' :: h₁ :: h₂ :: h₃ :: h₄ :: cs =>
      if isHexDigitCh h₁ && isHexDigitCh h₂ && isHexDigitCh h₃ && isHexDigitCh h₄ then
        let n := ((hexVal h₁ * 16 + hexVal h₂) * 16 + hexVal h₃) * 16 + hexVal h₄
        if n.isValidChar then
          (parseJString cs).map fun p => (Char.ofNat n :: p.1, p.2)
        else none
      else none
  | '\\' :: e :: cs =>
      if e = '"' then (parseJString cs).map fun p => ('"' :: p.1, p.2)
      else if e = '\\' then (parseJString cs).map fun p => ('\\' :: p.1, p.2)
      else if e = '/' then (parseJString cs).map fun p => ('/' :: p.1, p.2)
      else if e = 'b' then (parseJString cs).map fun p => ('\x08' :: p.1, p.2)
      else if e = 'f' then (parseJString cs).map fun p => ('\x0c' :: p.1, p.2)
      else if e = 'n' then (parseJString cs).map fun p => ('\x0a' :: p.1, p.2)
      else if e = 'r' then (parseJString cs).map fun p => ('\x0d' :: p.1, p.2)
      else if e = 't' then (parseJString cs).map fun p => ('\x09' :: p.1, p.2)
      else none
  | c :: cs =>
      if c.toNat < 0x20 then none
      else (parseJString cs).map fun p => (c :: p.1, p.2)

mutual

/-- One JSON value, leading whitespace allowed; `fuel` bounds the nesting
(`json_loads` passes more fuel than the text is long). -/
def parseValue : Nat → List Char → Option (TreeValue × List Char)
  | 0, _ => none
  | fuel + 1, cs =>
      match skipWs cs with
      | 'n' :: 'u' :: 'l' :: 'l' :: rest => some (.null, rest)
      | 't' :: 'r' :: 'u' :: 'e' :: rest => some (.bool true, rest)
      | 'f' :: 'a' :: 'l' :: 's' :: 'e' :: rest => some (.bool false, rest)
      | '"' :: rest => (parseJString rest).map fun p => (.str ⟨p.1⟩, p.2)
      | '-' :: rest => (parseNatJson rest).map fun p => (.int (-(p.1 : Int)), p.2)
      | '[' :: rest =>
          match skipWs rest with
          | ']' :: r => some (.array [], r)
          | r => (parseItems fuel r).map fun p => (.array p.1, p.2)
      | '\x7b' :: rest =>
          match skipWs rest with
          | '\x7d' :: r => some (.dict [], r)
          | r => (parseMembers fuel r).map fun p => (.dict p.1, p.2)
      | c :: rest =>
          if isDigitCh c then (parseNatJson (c :: rest)).map fun p => (.int (p.1 : Int), p.2)
          else none
      | [] => none

/-- The items of a nonempty JSON array, up to and including the `]`. -/
def parseItems : Nat → List Char → Option (List TreeValue × List Char)
  | 0, _ => none
  | fuel + 1, cs => do
      let (v, r) ← parseValue fuel cs
      match skipWs r with
      | ',' :: r' => (parseItems fuel r').map fun p => (v :: p.1, p.2)
      | ']' :: r' => some ([v], r')
      | _ => none

/-- The members of a nonempty JSON object, up to and including the `\x7d`.
Duplicate keys are kept in source order here; a Python `dict` would keep
the last occurrence, which `pyEq` and the round-trip theorems only consult
through inputs whose keys repeat nowhere. -/
def parseMembers : Nat → List Char → Option (List (String × TreeValue) × List Char)
  | 0, _ => none
  | fuel + 1, cs =>
      match skipWs cs with
      | '"' :: r => do
          let (k, r₁) ← parseJString r
          match skipWs r₁ with
          | ':' :: r₂ => do
              let (v, r₃) ← parseValue fuel r₂
              match skipWs r₃ with
              | ',' :: r₄ => (parseMembers fuel r₄).map fun p => ((⟨k⟩, v) :: p.1, p.2)
              | '\x7d' :: r₄ => some ([(⟨k⟩, v)], r₄)
              | _ => none
          | _ => none
      | _ => none

end

/-- Model of `json.loads`: parse one value and accept only whitespace
after it. -/
def json_loads (s : String) : Option TreeValue :=
  match parseValue (s.data.length + 1) s.data with
  | some (v, rest) => if skipWs rest = [] then some v else none
  | none => none

/-! ### The plist reader (the external collaborator `plistlib.readPlist`)

`PlistToJsonCommand.read_buffer` decodes the buffer with `readPlist`.  The
model parses the canonical XML the plist writer emits: prolog, `<plist>`
root, the value elements, entity references `&amp;` `&lt;` `&gt;`.  (The
real reader sits on expat and also accepts XML the writer never produces —
other entities, comments, attributes; those extensions decide no claim.) -/

/-- Match a literal prefix, returning what follows it. -/
def dropLit : List Char → List Char → Option (List Char)
  | [], cs => some cs
  | _ :: _, [] => none
  | l :: ls, c :: cs => if c = l then dropLit ls cs else none

/-- Drop text up to and including the first occurrence of `delim`. -/
def skipPast (delim : List Char) : List Char → Option (List Char)
  | [] => none
  | c :: cs =>
      match dropLit delim (c :: cs) with
      | some r => some r
      | none => skipPast delim cs

/-- Character text up to the next `<`, decoding the entity references the
plist writer emits; a bare `&` or end of input before `<` is an error. -/
def parseXmlText : List Char → Option (List Char × List Char)
  | [] => none
  | '<' :: cs => some ([], '<' :: cs)
  | '&' :: 'a' :: 'm' :: 'p' :: ';' :: cs =>
      (parseXmlText cs).map fun p => ('&' :: p.1, p.2)
  | '&' :: 'l' :: 't' :: ';' :: cs =>
      (parseXmlText cs).map fun p => ('<' :: p.1, p.2)
  | '&' :: 'g' :: 't' :: ';' :: cs =>
      (parseXmlText cs).map fun p => ('>' :: p.1, p.2)
  | '&' :: _ => none
  | c :: cs => (parseXmlText cs).map fun p => (c :: p.1, p.2)

/-- All-digit text to a natural number. -/
def parseDecNat (cs : List Char) : Option Nat :=
  if cs ≠ [] ∧ cs.all isDigitCh then
    some (cs.foldl (fun acc c => 10 * acc + digitVal c) 0)
  else none

/-- `<integer>` content: optional sign, digits (what `int()` accepts of
the text the writer emits). -/
def parseDecInt : List Char → Option Int
  | '-' :: cs => (parseDecNat cs).map fun n => -(n : Int)
  | cs => (parseDecNat cs).map fun n => (n : Int)

/-- Value of one base64 alphabet character. -/
def base64Val (c : Char) : Option Nat :=
  if 65 ≤ c.toNat ∧ c.toNat ≤ 90 then some (c.toNat - 65)
  else if 97 ≤ c.toNat ∧ c.toNat ≤ 122 then some (c.toNat - 97 + 26)
  else if 48 ≤ c.toNat ∧ c.toNat ≤ 57 then some (c.toNat - 48 + 52)
  else if c = '+' then some 62
  else if c = '/' then some 63
  else none

/-- Decode base64 text (whitespace already removed). -/
def base64Decode : List Char → Option (List Nat)
  | [] => some []
  | [a, b, '=', '='] => do
      let va ← base64Val a
      let vb ← base64Val b
      some [va * 4 + vb / 16]
  | [a, b, c, '='] => do
      let va ← base64Val a
      let vb ← base64Val b
      let vc ← base64Val c
      some [va * 4 + vb / 16, vb % 16 * 16 + vc / 4]
  | a :: b :: c :: d :: rest => do
      let va ← base64Val a
      let vb ← base64Val b
      let vc ← base64Val c
      let vd ← base64Val d
      let bs ← base64Decode rest
      some ((va * 4 + vb / 16) :: (vb % 16 * 16 + vc / 4) :: (vc % 4 * 64 + vd) :: bs)
  | _ => none

mutual

/-- One plist value element, leading whitespace allowed. -/
def parsePlistV : Nat → List Char → Option (TreeValue × List Char)
  | 0, _ => none
  | fuel + 1, cs =>
      match skipWs cs with
      | '<' :: 't' :: 'r' :: 'u' :: 'e' :: '/' :: '>' :: r => some (.bool true, r)
      | '<' :: 'f' :: 'a' :: 'l' :: 's' :: 'e' :: '/' :: '>' :: r => some (.bool false, r)
      | '<' :: 'i' :: 'n' :: 't' :: 'e' :: 'g' :: 'e' :: 'r' :: '>' :: r => do
          let (txt, r₁) ← parseXmlText r
          let r₂ ← dropLit "</integer>".data r₁
          let n ← parseDecInt txt
          some (.int n, r₂)
      | '<' :: 's' :: 't' :: 'r' :: 'i' :: 'n' :: 'g' :: '>' :: r => do
          let (txt, r₁) ← parseXmlText r
          let r₂ ← dropLit "</string>".data r₁
          some (.str ⟨txt⟩, r₂)
      | '<' :: 'd' :: 'a' :: 't' :: 'a' :: '>' :: r => do
          let (txt, r₁) ← parseXmlText r
          let r₂ ← dropLit "</data>".data r₁
          let bs ← base64Decode (txt.filter fun c => !isJsonWs c)
          some (.data bs, r₂)
      | '<' :: 'd' :: 'a' :: 't' :: 'e' :: '>' :: r => do
          let (txt, r₁) ← parseXmlText r
          let r₂ ← dropLit "</date>".data r₁
          some (.date ⟨txt⟩, r₂)
      | '<' :: 'd' :: 'i' :: 'c' :: 't' :: '/' :: '>' :: r => some (.dict [], r)
      | '<' :: 'd' :: 'i' :: 'c' :: 't' :: '>' :: r =>
          (parsePlistEntries fuel r).map fun p => (.dict p.1, p.2)
      | '<' :: 'a' :: 'r' :: 'r' :: 'a' :: 'y' :: '/' :: '>' :: r => some (.array [], r)
      | '<' :: 'a' :: 'r' :: 'r' :: 'a' :: 'y' :: '>' :: r =>
          (parsePlistItems fuel r).map fun p => (.array p.1, p.2)
      | _ => none

/-- `<key>`/value pairs up to and including `</dict>`. -/
def parsePlistEntries : Nat → List Char → Option (List (String × TreeValue) × List Char)
  | 0, _ => none
  | fuel + 1, cs =>
      match skipWs cs with
      | '<' :: '/' :: 'd' :: 'i' :: 'c' :: 't' :: '>' :: r => some ([], r)
      | '<' :: 'k' :: 'e' :: 'y' :: '>' :: r => do
          let (ktxt, r₁) ← parseXmlText r
          let r₂ ← dropLit "</key>".data r₁
          let (v, r₃) ← parsePlistV fuel r₂
          let (es, r₄) ← parsePlistEntries fuel r₃
          some ((⟨ktxt⟩, v) :: es, r₄)
      | _ => none

/-- Array item elements up to and including `</array>`. -/
def parsePlistItems : Nat → List Char → Option (List TreeValue × List Char)
  | 0, _ => none
  | fuel + 1, cs =>
      match skipWs cs with
      | '<' :: '/' :: 'a' :: 'r' :: 'r' :: 'a' :: 'y' :: '>' :: r => some ([], r)
      | cs' => do
          let (v, r) ← parsePlistV fuel cs'
          let (xs, r') ← parsePlistItems fuel r
          some (v :: xs, r')

end

/-- Model of `plistlib.readPlist` as `PlistToJsonCommand.read_buffer` calls
it: optional XML declaration and doctype, the `<plist>` root, one value,
`</plist>`, nothing but whitespace elsewhere. -/
def readPlistModel (text : String) : Option TreeValue := do
  let cs₀ := skipWs text.data
  let cs₁ ←
    match dropLit "<?xml".data cs₀ with
    | some r => skipPast ['?', '>'] r
    | none => some cs₀
  let cs₂ := skipWs cs₁
  let cs₃ ←
    match dropLit "<!DOCTYPE".data cs₂ with
    | some r => skipPast ['>'] r
    | none => some cs₂
  let cs₄ := skipWs cs₃
  let cs₅ ←
    match dropLit "<plist".data cs₄ with
    | some r => skipPast ['>'] r
    | none => none
  let (v, r) ← parsePlistV (cs₅.length + 1) cs₅
  let r₁ ← dropLit "</plist>".data (skipWs r)
  if (skipWs r₁).isEmpty then some v else none

/-! ### Python equality, null detection, and the command pipelines -/

/-- First entry with the given key (keys repeat nowhere in the values the
round-trip theorems relate, so first and last occurrence agree). -/
def lookupKV (k : String) : List (String × TreeValue) → Option TreeValue
  | [] => none
  | e :: es => if e.1 = k then some e.2 else lookupKV k es

mutual

/-- Python's `==` on tree values: structural, except that mappings compare
as finite maps — same size and, for every key of the left, an equal value
under the same key on the right — the way Python compares two `dict`s. -/
def pyEqV : TreeValue → TreeValue → Bool
  | .null, .null => true
  | .bool a, .bool b => decide (a = b)
  | .int a, .int b => decide (a = b)
  | .str a, .str b => decide (a = b)
  | .data a, .data b => decide (a = b)
  | .date a, .date b => decide (a = b)
  | .array xs, .array ys => pyEqL xs ys
  | .dict es, .dict fs => decide (es.length = fs.length) && pyEqEntries es fs
  | _, _ => false

/-- Pointwise Python equality of two sequences. -/
def pyEqL : List TreeValue → List TreeValue → Bool
  | [], [] => true
  | x :: xs, y :: ys => pyEqV x y && pyEqL xs ys
  | _, _ => false

/-- Every entry of the first list finds a Python-equal value under its key
in the second. -/
def pyEqEntries : List (String × TreeValue) → List (String × TreeValue) → Bool
  | [], _ => true
  | e :: es, fs =>
      (match lookupKV e.1 fs with
        | some w => pyEqV e.2 w
        | none => false) && pyEqEntries es fs

end

mutual

/-- Does the tree hold a `null` anywhere? -/
def containsNullV : TreeValue → Bool
  | .null => true
  | .array xs => containsNullL xs
  | .dict es => containsNullKV es
  | _ => false

/-- Any `null` among the items? -/
def containsNullL : List TreeValue → Bool
  | [] => false
  | x :: xs => containsNullV x || containsNullL xs

/-- Any `null` among the entry values? -/
def containsNullKV : List (String × TreeValue) → Bool
  | [] => false
  | e :: es => containsNullV e.2 || containsNullKV es

end

/-- What one command run leaves behind: the full converted text, or
nothing. -/
inductive RunOutcome where
  | written (text : String)
  | noOutput
  deriving Repr, DecidableEq, Inhabited

/-- Model of `JsonToPlistCommand.read_buffer`:
`json.loads(sanitize_json(buffer_text, True))`, `none` when either step
raises and the command reports an error. -/
def jsonToPlistRead (text : String) : Option TreeValue :=
  match sanitize_json text true with
  | .error _ => none
  | .ok t => json_loads t

/-- Model of `LanguageConverter.run` for `PlistToJsonCommand`: write only
after `read_buffer` and `convert` both succeed. -/
def plistToJsonRun (text : String) : RunOutcome :=
  match readPlistModel text with
  | none => .noOutput
  | some tree =>
      match json_dumps tree with
      | none => .noOutput
      | some out => .written out

/-- Model of `LanguageConverter.run` for `JsonToPlistCommand`. -/
def jsonToPlistRun (text : String) : RunOutcome :=
  match jsonToPlistRead text with
  | none => .noOutput
  | some tree =>
      match plist_dumps tree with
      | none => .noOutput
      | some out => .written out

/-! ### Output file names

Both commands resolve the output file name from the settings-driven
extension table (entries pair a plist extension with a JSON extension) and
fall back to `splitext(filename)[0]` plus a fixed default. -/

/-- Drop a single final newline (the position where the regex anchor `$`
also matches). -/
def stripFinalNewline (cs : List Char) : List Char :=
  match cs.getLast? with
  | some '\x0a' => cs.dropLast
  | _ => cs

/-- Model of `re.match("^(.*)\\." + ext + "$", filename, re.IGNORECASE)`
returning `m.group(1)`: the filename (less an optional final newline, which
`$` skips) must end in `.` plus the extension, compared case-insensitively;
`.*` cannot cross a newline, so the stem must hold none.  The settings-
supplied extension is taken as literal text (the entries in use are plain
alphanumeric extensions, holding no regex metacharacters). -/
def matchExt (ext : String) (filename : String) : Option String :=
  let fn := stripFinalNewline filename.data
  let pat := '.' :: ext.data
  let stem := fn.take (fn.length - pat.length)
  if pat.length ≤ fn.length ∧
      (fn.drop (fn.length - pat.length)).map Char.toLower = pat.map Char.toLower ∧
      stem.contains '\x0a' = false then
    some ⟨stem⟩
  else none

/-- Model of `os.path.splitext(filename)[0]` (posixpath): cut at the last
dot of the final path component, unless only leading dots precede it
there. -/
def splitextRoot (filename : String) : String :=
  let rev := filename.data.reverse
  let bnRev := rev.takeWhile (· != '/')
  let extRev := bnRev.takeWhile (· != '.')
  if extRev.length = bnRev.length then filename
  else if (bnRev.drop (extRev.length + 1)).all (· == '.') then filename
  else ⟨filename.data.take (filename.data.length - (extRev.length + 1))⟩

/-- The table scan of `PlistToJsonCommand.get_output_file`: first entry
whose plist extension matches the filename wins, and names the stem plus
the entry's JSON extension. -/
def p2jLookup : List (String × String) → String → Option String
  | [], _ => none
  | e :: tbl, fn =>
      match matchExt e.1 fn with
      | some stem => some (stem ++ "." ++ e.2)
      | none => p2jLookup tbl fn

/-- The table scan of `JsonToPlistCommand.get_output_file`. -/
def j2pLookup : List (String × String) → String → Option String
  | [], _ => none
  | e :: tbl, fn =>
      match matchExt e.2 fn with
      | some stem => some (stem ++ "." ++ e.1)
      | none => j2pLookup tbl fn

/-- Model of `PlistToJsonCommand.get_output_file`: the table result, or the
splitext root plus the upper-case default `".JSON"`. -/
def p2j_get_output_file (tbl : List (String × String)) (fn : String) : String :=
  match p2jLookup tbl fn with
  | some name => name
  | none => splitextRoot fn ++ ".JSON"

/-- Model of `JsonToPlistCommand.get_output_file`: the table result, or the
splitext root plus the lower-case default `".plist"`. -/
def j2p_get_output_file (tbl : List (String × String)) (fn : String) : String :=
  match j2pLookup tbl fn with
  | some name => name
  | none => splitextRoot fn ++ ".plist"

/-- A stretch of text that the comment pass copies verbatim, leaving the
scanner outside any string or comment, whatever follows it. -/
def ScTransparent (p : List Char) : Prop :=
  ∀ k, scOutside (p ++ k) = (scOutside k).map fun r => p ++ r

/-- A stretch of text that the trailing-comma pass copies verbatim, leaving
the scanner outside any string, whatever follows it. -/
def TcTransparent (p : List Char) : Prop :=
  ∀ k, tcOutside (p ++ k) = p ++ tcOutside k

/-- The raw text of a JSON string literal body as it stands in the source:
plain characters (no quote, no backslash) and backslash-escape pairs.  The
scanner state machines treat exactly these two shapes inside a literal. -/
inductive StrBody : List Char → Prop where
  | nil : StrBody []
  | plain {c : Char} {cs : List Char} (h₁ : c ≠ '"') (h₂ : c ≠ '\\')
      (h : StrBody cs) : StrBody (c :: cs)
  | esc (c : Char) {cs : List Char} (h : StrBody cs) : StrBody ('\\' :: c :: cs)

/-- Text both sanitizer passes copy verbatim. -/
def JChunk (p : List Char) : Prop :=
  ScTransparent p ∧ TcTransparent p

/-- Is there a closing `*/` anywhere in the text? -/
def hasBlockEnd : List Char → Bool
  | [] => false
  | '*' :: '/' :: _ => true
  | _ :: cs => hasBlockEnd cs

/-- First character that is not JSON whitespace. -/
def firstNonWs (cs : List Char) : Option Char :=
  (cs.dropWhile isJsonWs).head?

/-- What the JSON parser consumed before `rest` is text both sanitizer
passes copy verbatim, and its first meaningful character is not a closing
bracket. -/
def ParsedChunk (cs rest : List Char) : Prop :=
  ∃ p c, cs = p ++ rest ∧ JChunk p ∧ firstNonWs p = some c ∧ c ≠ ']' ∧ c ≠ '\x7d'

/-- Text that cannot extend a decimal number standing before it: empty, or
starting with a non-digit.  (After any other rendered value the next
character never matters to the parser.) -/
def restSafe (rest : List Char) : Prop :=
  ∀ c, rest.head? = some c → isDigitCh c = false

/-- No string occurs twice in the list (the keys of one Python `dict`). -/
def keysNodup : List String → Bool
  | [] => true
  | k :: ks => !(ks.contains k) && keysNodup ks

mutual

/-- Every mapping in the tree has pairwise distinct keys — automatically
true of any tree produced from a Python `dict`, whose keys are unique by
construction. -/
def nodupKeysV : TreeValue → Bool
  | .array vs => nodupKeysL vs
  | .dict es => keysNodup (es.map Prod.fst) && nodupKeysKV es
  | _ => true

/-- `nodupKeysV` over the items of a sequence. -/
def nodupKeysL : List TreeValue → Bool
  | [] => true
  | v :: vs => nodupKeysV v && nodupKeysL vs

/-- `nodupKeysV` over the values of a mapping. -/
def nodupKeysKV : List (String × TreeValue) → Bool
  | [] => true
  | e :: es => nodupKeysV e.2 && nodupKeysKV es

end

/-- The JSON round-trip property of one tree value: whatever `json.dumps`
renders at any depth, `json.loads` reads back from any position — given
enough fuel and a follower that cannot extend a number — consuming exactly
the rendered text and producing a Python-equal value. -/
def RoundP (v : TreeValue) : Prop :=
  nodupKeysV v = true → ∀ lvl out, dumpsV lvl v = some out →
    ∀ fuel, out.length < fuel → ∀ rest, restSafe rest →
      ∃ w, parseValue fuel (out ++ rest) = some (w, rest) ∧ pyEqV w v = true


/-! ### Properties of the key order -/

theorem charsLe_total : ∀ a b : List Char, charsLe a b = true ∨ charsLe b a = true
  | [], b => by left; simp [charsLe]
  | a :: as, [] => by right; simp [charsLe]
  | a :: as, b :: bs => by
      rcases Nat.lt_trichotomy a.toNat b.toNat with h | h | h
      · left; simp [charsLe, h]
      · have h' : ¬ a.toNat < b.toNat := by omega
        have h'' : ¬ b.toNat < a.toNat := by omega
        rcases charsLe_total as bs with ih | ih
        · left; simp [charsLe, h', h'', ih]
        · right; simp [charsLe, h', h'', ih]
      · right; simp [charsLe, h]

theorem charsLe_cons_le {a b : Char} {as bs : List Char}
    (h : charsLe (a :: as) (b :: bs) = true) : a.toNat ≤ b.toNat := by
  simp only [charsLe] at h
  by_cases h₁ : a.toNat < b.toNat
  · omega
  · by_cases h₂ : b.toNat < a.toNat
    · simp [h₁, h₂] at h
    · omega

theorem charsLe_cons_tail {a b : Char} {as bs : List Char}
    (h : charsLe (a :: as) (b :: bs) = true) (hab : a.toNat = b.toNat) :
    charsLe as bs = true := by
  simp only [charsLe] at h
  have h₁ : ¬ a.toNat < b.toNat := by omega
  have h₂ : ¬ b.toNat < a.toNat := by omega
  simpa [h₁, h₂] using h

theorem charsLe_of_lt {a b : Char} {as bs : List Char}
    (h : a.toNat < b.toNat) : charsLe (a :: as) (b :: bs) = true := by
  simp [charsLe, h]

theorem charsLe_of_eq {a b : Char} {as bs : List Char}
    (hab : a.toNat = b.toNat) (h : charsLe as bs = true) :
    charsLe (a :: as) (b :: bs) = true := by
  have h₁ : ¬ a.toNat < b.toNat := by omega
  have h₂ : ¬ b.toNat < a.toNat := by omega
  simp [charsLe, h₁, h₂, h]

theorem charsLe_trans : ∀ {a b c : List Char},
    charsLe a b = true → charsLe b c = true → charsLe a c = true
  | [], _, _, _, _ => by simp [charsLe]
  | _ :: _, [], _, h, _ => by simp [charsLe] at h
  | _ :: _, _ :: _, [], _, h => by simp [charsLe] at h
  | a :: as, b :: bs, c :: cs, h₁, h₂ => by
      have hab := charsLe_cons_le h₁
      have hbc := charsLe_cons_le h₂
      by_cases hac : a.toNat < c.toNat
      · exact charsLe_of_lt hac
      · have hab' : a.toNat = b.toNat := by omega
        have hbc' : b.toNat = c.toNat := by omega
        exact charsLe_of_eq (by omega)
          (charsLe_trans (charsLe_cons_tail h₁ hab') (charsLe_cons_tail h₂ hbc'))

theorem Char.eq_of_toNat_eq {a b : Char} (h : a.toNat = b.toNat) : a = b := by
  have ha := Char.ofNat_toNat a
  have hb := Char.ofNat_toNat b
  rw [← ha, ← hb, h]

theorem charsLe_antisymm : ∀ {a b : List Char},
    charsLe a b = true → charsLe b a = true → a = b
  | [], [], _, _ => rfl
  | [], _ :: _, _, h => by simp [charsLe] at h
  | _ :: _, [], h, _ => by simp [charsLe] at h
  | a :: as, b :: bs, h₁, h₂ => by
      have hab := charsLe_cons_le h₁
      have hba := charsLe_cons_le h₂
      have hab' : a.toNat = b.toNat := by omega
      have : a = b := Char.eq_of_toNat_eq hab'
      rw [this,
        charsLe_antisymm (charsLe_cons_tail h₁ hab') (charsLe_cons_tail h₂ (by omega))]

instance {α : Type} : IsTotal (String × α) keyRel :=
  ⟨fun a b => by
    rcases charsLe_total a.1.data b.1.data with h | h
    · exact Or.inl h
    · exact Or.inr h⟩

instance {α : Type} : IsTrans (String × α) keyRel :=
  ⟨fun _ _ _ hab hbc => charsLe_trans hab hbc⟩

theorem strLe_antisymm {a b : String} (h₁ : strLe a b = true) (h₂ : strLe b a = true) :
    a = b := by
  cases a; cases b
  exact congrArg String.mk (charsLe_antisymm h₁ h₂)

theorem char_lt_iff {a b : Char} : a < b ↔ a.toNat < b.toNat := Iff.rfl

theorem charsLe_iff_not_lex : ∀ x y : List Char, charsLe x y = true ↔ ¬ y < x
  | [], y => by
      simp only [charsLe]
      constructor
      · intro _ h
        cases h
      · intro _; trivial
  | a :: as, [] => by
      simp only [charsLe]
      constructor
      · intro h; exact Bool.noConfusion h
      · intro h
        exact absurd List.Lex.nil h
  | a :: as, b :: bs => by
      rcases Nat.lt_trichotomy a.toNat b.toNat with hab | hab | hab
      · simp only [charsLe, hab, if_pos]
        constructor
        · intro _ h
          cases h with
          | cons h => omega
          | rel h => rw [char_lt_iff] at h; omega
        · intro _; trivial
      · have hne : ¬ a.toNat < b.toNat := by omega
        have hne' : ¬ b.toNat < a.toNat := by omega
        have hab' : a = b := Char.eq_of_toNat_eq hab
        simp only [charsLe, hne, hne', if_neg, if_false]
        rw [charsLe_iff_not_lex as bs]
        constructor
        · intro h hlex
          cases hlex with
          | cons h' => exact h h'
          | rel h' => rw [char_lt_iff] at h'; omega
        · intro h hlex
          exact h (hab' ▸ List.Lex.cons hlex)
      · have hne : ¬ a.toNat < b.toNat := by omega
        simp only [charsLe, hne, hab, if_neg, if_pos, if_false]
        constructor
        · intro h; exact Bool.noConfusion h
        · intro h
          exact absurd (List.Lex.rel (char_lt_iff.mpr hab)) h

/-- The executable comparison agrees with Mathlib's linear order on `String`
(both are code-point-lexicographic). -/
theorem strLe_iff_le {a b : String} : strLe a b = true ↔ a ≤ b := by
  rw [String.le_iff_toList_le, ← not_lt]
  exact charsLe_iff_not_lex a.data b.data

/-- Two key-sorted entry lists that are permutations of each other and whose
keys repeat nowhere are the same list. -/
theorem sorted_perm_eq_of_nodup_keys {α : Type} :
    ∀ {l₁ l₂ : List (String × α)}, l₁.Perm l₂ → (l₁.map Prod.fst).Nodup →
      l₁.Pairwise keyRel → l₂.Pairwise keyRel → l₁ = l₂ := by
  intro l₁
  induction l₁ with
  | nil =>
      intro l₂ hp _ _ _
      exact (hp.symm.eq_nil).symm
  | cons a t₁ ih =>
      intro l₂ hp hnd hs₁ hs₂
      cases l₂ with
      | nil => exact absurd hp.eq_nil (by simp)
      | cons b t₂ =>
          have hab : a = b := by
            have ha : a ∈ b :: t₂ := hp.mem_iff.mp (List.mem_cons_self a t₁)
            have hb : b ∈ a :: t₁ := hp.mem_iff.mpr (List.mem_cons_self b t₂)
            rcases List.mem_cons.mp ha with h | ha'
            · exact h
            rcases List.mem_cons.mp hb with h | hb'
            · exact h.symm
            exfalso
            have h₁ : keyRel a b := (List.pairwise_cons.mp hs₁).1 b hb'
            have h₂ : keyRel b a := (List.pairwise_cons.mp hs₂).1 a ha'
            have hkey : a.1 = b.1 := strLe_antisymm h₁ h₂
            have hmem : a.1 ∈ t₁.map Prod.fst := by
              rw [hkey]
              exact List.mem_map_of_mem Prod.fst hb'
            rw [List.map_cons, List.nodup_cons] at hnd
            exact hnd.1 hmem
          subst hab
          have ht : t₁.Perm t₂ := hp.cons_inv
          rw [List.map_cons, List.nodup_cons] at hnd
          rw [ih ht hnd.2 hs₁.of_cons hs₂.of_cons]

theorem dumpsKV_cons (lvl : Nat) (e : String × TreeValue) (es : List (String × TreeValue)) :
    dumpsKV lvl (e :: es) =
      (dumpsV lvl e.2).bind fun r =>
        (dumpsKV lvl es).bind fun rs => some ((e.1, r) :: rs) :=
  rfl

/-- Rendering the entries of a permuted list succeeds with a permuted
result. -/
theorem dumpsKV_perm_some {lvl : Nat} {es es' : List (String × TreeValue)} (h : es.Perm es') :
    ∀ {rs}, dumpsKV lvl es = some rs →
      ∃ rs', dumpsKV lvl es' = some rs' ∧ rs.Perm rs' := by
  induction h with
  | nil =>
      intro rs hrs
      exact ⟨rs, hrs, List.Perm.refl _⟩
  | cons x h ih =>
      rename_i l₁ l₂
      intro rs hrs
      rw [dumpsKV_cons] at hrs
      cases hv : dumpsV lvl x.2 with
      | none => simp [hv] at hrs
      | some r =>
          rw [hv] at hrs
          cases hkv : dumpsKV lvl l₁ with
          | none => simp [hkv] at hrs
          | some rs₁ =>
              rw [hkv] at hrs
              simp only [Option.some_bind, Option.some.injEq] at hrs
              obtain ⟨rs₂, hrs₂, hperm⟩ := ih hkv
              refine ⟨(x.1, r) :: rs₂, ?_, ?_⟩
              · rw [dumpsKV_cons, hv, hrs₂]
                rfl
              · rw [← hrs]
                exact hperm.cons _
  | swap x y l =>
      intro rs hrs
      rw [dumpsKV_cons] at hrs
      cases hy : dumpsV lvl y.2 with
      | none => simp [hy] at hrs
      | some ry =>
          rw [hy] at hrs
          rw [show dumpsKV lvl (x :: l) =
                (dumpsV lvl x.2).bind fun r =>
                  (dumpsKV lvl l).bind fun rs => some ((x.1, r) :: rs) from rfl] at hrs
          cases hx : dumpsV lvl x.2 with
          | none => simp [hx] at hrs
          | some rx =>
              rw [hx] at hrs
              cases hl : dumpsKV lvl l with
              | none => simp [hl] at hrs
              | some rs₀ =>
                  rw [hl] at hrs
                  simp only [Option.some_bind, Option.some.injEq] at hrs
                  refine ⟨(x.1, rx) :: (y.1, ry) :: rs₀, ?_, ?_⟩
                  · rw [dumpsKV_cons, hx, dumpsKV_cons, hy, hl]
                    rfl
                  · rw [← hrs]
                    exact List.Perm.swap _ _ _
  | trans h₁ h₂ ih₁ ih₂ =>
      intro rs hrs
      obtain ⟨rs₁, h₁', hp₁⟩ := ih₁ hrs
      obtain ⟨rs₂, h₂', hp₂⟩ := ih₂ h₁'
      exact ⟨rs₂, h₂', hp₁.trans hp₂⟩

theorem dumpsKV_none_of_perm {lvl : Nat} {es es' : List (String × TreeValue)}
    (h : es.Perm es') (hn : dumpsKV lvl es = none) : dumpsKV lvl es' = none := by
  cases h' : dumpsKV lvl es' with
  | none => rfl
  | some rs' =>
      obtain ⟨rs, hrs, -⟩ := dumpsKV_perm_some h.symm h'
      rw [hrs] at hn
      exact Option.noConfusion hn

/-- Rendering entry values keeps the keys, in order. -/
theorem dumpsKV_map_fst {lvl : Nat} :
    ∀ {es : List (String × TreeValue)} {rs},
      dumpsKV lvl es = some rs → rs.map Prod.fst = es.map Prod.fst := by
  intro es
  induction es with
  | nil =>
      intro rs hrs
      simp only [dumpsKV, Option.some.injEq] at hrs
      simp [← hrs]
  | cons e es ih =>
      intro rs hrs
      rw [dumpsKV_cons] at hrs
      cases hv : dumpsV lvl e.2 with
      | none => simp [hv] at hrs
      | some r =>
          rw [hv] at hrs
          cases hkv : dumpsKV lvl es with
          | none => simp [hkv] at hrs
          | some rs₁ =>
              rw [hkv] at hrs
              simp only [Option.some_bind, Option.some.injEq] at hrs
              rw [← hrs]
              simp [ih hkv]

/-- The entries actually emitted for a dictionary are `List.Pairwise`
increasing in their keys. -/
theorem sortByKey_pairwise {α : Type} (rs : List (String × α)) :
    (sortByKey rs).Pairwise keyRel := by
  have htot : IsTotal (String × α) keyRel := inferInstance
  have htra : IsTrans (String × α) keyRel := inferInstance
  exact List.sorted_insertionSort keyRel rs

/-- C1: for every tree value, the JSON serialisation of
`PlistToJsonCommand.convert` emits the members of every mapping sorted
lexicographically by key and does not depend on the source order of the
keys; indentation is 4 spaces, separators are `','` and `': '` (witnessed
on the spec's example, whose serialisation is computed in full). -/
theorem plist_to_json_sorted_keys
    (kvs kvs' : List (String × TreeValue)) (lvl : Nat)
    (hnd : (kvs.map Prod.fst).Nodup) (hperm : kvs.Perm kvs') :
    dumpsV lvl (.dict kvs) = dumpsV lvl (.dict kvs') ∧
    (∀ rs, dumpsKV (lvl + 1) kvs = some rs →
      ((sortByKey rs).map Prod.fst).Sorted (· ≤ ·)) ∧
    json_dumps (.dict [("b", .int 1), ("a", .int 2)]) =
      some "\x7b\n    \"a\": 2,\n    \"b\": 1\n\x7d" := by
  refine ⟨?_, ?_, by decide⟩
  · cases kvs with
    | nil =>
        rw [hperm.symm.eq_nil]
    | cons e es =>
        cases hk : kvs' with
        | nil =>
            subst hk
            exact absurd hperm.eq_nil (by simp)
        | cons e' es' =>
            subst hk
            show (dumpsKV (lvl + 1) (e :: es)).bind (fun rs => some (dictBody lvl rs)) =
              (dumpsKV (lvl + 1) (e' :: es')).bind (fun rs => some (dictBody lvl rs))
            cases h : dumpsKV (lvl + 1) (e :: es) with
            | none =>
                rw [dumpsKV_none_of_perm hperm h]
            | some rs =>
                obtain ⟨rs', hrs', hp⟩ := dumpsKV_perm_some hperm h
                rw [hrs']
                have hkeys : (rs.map Prod.fst).Nodup := by
                  rw [dumpsKV_map_fst h]
                  exact hnd
                have hsorted : sortByKey rs = sortByKey rs' := by
                  apply sorted_perm_eq_of_nodup_keys
                    (((List.perm_insertionSort keyRel rs).trans hp).trans
                      (List.perm_insertionSort keyRel rs').symm)
                  · exact ((List.perm_insertionSort keyRel rs).map Prod.fst).nodup_iff.mpr hkeys
                  · exact sortByKey_pairwise rs
                  · exact sortByKey_pairwise rs'
                simp [dictBody, hsorted]
  · intro rs hrs
    have hpw := sortByKey_pairwise rs
    refine List.pairwise_map.mpr ?_
    exact hpw.imp fun h => strLe_iff_le.mp h

/-! ### Scanner composition lemmas -/

theorem scOutside_cons_plain {c : Char} (h₁ : c ≠ '"') (h₂ : c ≠ '/') (cs : List Char) :
    scOutside (c :: cs) = (scOutside cs).map fun r => c :: r := by
  rw [scOutside.eq_def]
  split <;> simp_all

theorem scInside_cons_plain {c : Char} (h₁ : c ≠ '"') (h₂ : c ≠ '\\') (cs : List Char) :
    scInside (c :: cs) = (scInside cs).map fun r => c :: r := by
  rw [scInside.eq_def]
  split <;> simp_all

theorem tcOutside_cons_plain {c : Char} (h₁ : c ≠ '"') (h₂ : c ≠ ',') (cs : List Char) :
    tcOutside (c :: cs) = c :: tcOutside cs := by
  rw [tcOutside.eq_def]
  split <;> simp_all

theorem tcInside_cons_plain {c : Char} (h₁ : c ≠ '"') (h₂ : c ≠ '\\') (cs : List Char) :
    tcInside (c :: cs) = c :: tcInside cs := by
  rw [tcInside.eq_def]
  split <;> simp_all

/-- Inside a string literal, the comment pass copies every character other
than quote and backslash verbatim up to the closing quote, then returns to
code. -/
theorem scInside_lit :
    ∀ (lit rest : List Char), (∀ c ∈ lit, c ≠ '"' ∧ c ≠ '\\') →
      scInside (lit ++ '"' :: rest) = (scOutside rest).map fun r => lit ++ '"' :: r
  | [], rest, _ => by
      show (scOutside rest).map _ = _
      cases scOutside rest <;> rfl
  | c :: lit, rest, h => by
      have hc := h c (List.mem_cons_self c lit)
      rw [List.cons_append, scInside_cons_plain hc.1 hc.2,
        scInside_lit lit rest fun x hx => h x (List.mem_cons_of_mem c hx)]
      cases scOutside rest <;> rfl

/-- Inside a string literal, the trailing-comma pass copies every character
other than quote and backslash verbatim up to the closing quote. -/
theorem tcInside_lit :
    ∀ (lit rest : List Char), (∀ c ∈ lit, c ≠ '"' ∧ c ≠ '\\') →
      tcInside (lit ++ '"' :: rest) = lit ++ '"' :: tcOutside rest
  | [], rest, _ => rfl
  | c :: lit, rest, h => by
      have hc := h c (List.mem_cons_self c lit)
      rw [List.cons_append, tcInside_cons_plain hc.1 hc.2,
        tcInside_lit lit rest fun x hx => h x (List.mem_cons_of_mem c hx)]
      rfl

theorem scTransparent_nil : ScTransparent [] := by
  intro k
  show scOutside k = _
  cases scOutside k <;> rfl

theorem scTransparent_append {p q : List Char}
    (hp : ScTransparent p) (hq : ScTransparent q) : ScTransparent (p ++ q) := by
  intro k
  rw [List.append_assoc, hp (q ++ k), hq k]
  cases scOutside k with
  | error e => rfl
  | ok r =>
      show Except.ok (p ++ (q ++ r)) = Except.ok (p ++ q ++ r)
      rw [List.append_assoc]

theorem scTransparent_plain {c : Char} (h₁ : c ≠ '"') (h₂ : c ≠ '/') :
    ScTransparent [c] := by
  intro k
  rw [List.cons_append, scOutside_cons_plain h₁ h₂]
  rfl

theorem scTransparent_string {lit : List Char} (h : ∀ c ∈ lit, c ≠ '"' ∧ c ≠ '\\') :
    ScTransparent ('"' :: lit ++ ['"']) := by
  intro k
  have heq : ('"' :: lit ++ ['"']) ++ k = '"' :: (lit ++ '"' :: k) := by simp
  rw [heq,
    show scOutside ('"' :: (lit ++ '"' :: k)) =
      (scInside (lit ++ '"' :: k)).map fun r => '"' :: r from rfl,
    scInside_lit lit k h]
  cases scOutside k with
  | error e => rfl
  | ok r =>
      show Except.ok ('"' :: (lit ++ '"' :: r)) = Except.ok ('"' :: lit ++ ['"'] ++ r)
      simp

theorem scBlock_cons (c c' : Char) (cs : List Char) :
    scBlock (c :: c' :: cs) =
      if c = '*' ∧ c' = '/' then scOutside cs else scBlock (c' :: cs) := by
  rw [scBlock.eq_def]
  split
  · simp_all
  · simp_all
  · rename_i hno heq
    injection heq with e1 e2
    subst e1
    subst e2
    have hcond : ¬ (c = '*' ∧ c' = '/') := by
      rintro ⟨rfl, rfl⟩
      exact hno cs rfl rfl
    rw [if_neg hcond]

theorem hasBlockEnd_cons (c c' : Char) (cs : List Char) :
    hasBlockEnd (c :: c' :: cs) =
      if c = '*' ∧ c' = '/' then true else hasBlockEnd (c' :: cs) := by
  rw [hasBlockEnd.eq_def]
  split
  · simp_all
  · simp_all
  · rename_i hno heq
    injection heq with e1 e2
    subst e1
    subst e2
    have hcond : ¬ (c = '*' ∧ c' = '/') := by
      rintro ⟨rfl, rfl⟩
      exact hno cs rfl rfl
    rw [if_neg hcond]

theorem scBlock_error : ∀ cs, hasBlockEnd cs = false → scBlock cs = .error .unterminatedComment := by
  intro cs
  induction cs with
  | nil => intro _; rfl
  | cons c cs ih =>
      intro h
      cases cs with
      | nil =>
          rw [scBlock.eq_def]
          split
          · simp_all
          · simp_all
          · rename_i hno heq
            injection heq with e1 e2
            subst e2
            rfl
      | cons c' cs' =>
          rw [scBlock_cons]
          by_cases hc : c = '*' ∧ c' = '/'
          · rw [hasBlockEnd_cons, if_pos hc] at h
            exact absurd h (by simp)
          · rw [if_neg hc]
            apply ih
            rw [hasBlockEnd_cons, if_neg hc] at h
            exact h

theorem tcTransparent_nil : TcTransparent [] := fun _ => rfl

theorem tcTransparent_append {p q : List Char}
    (hp : TcTransparent p) (hq : TcTransparent q) : TcTransparent (p ++ q) := by
  intro k
  rw [List.append_assoc, hp (q ++ k), hq k, List.append_assoc]

theorem tcTransparent_plain {c : Char} (h₁ : c ≠ '"') (h₂ : c ≠ ',') :
    TcTransparent [c] := by
  intro k
  rw [List.cons_append, tcOutside_cons_plain h₁ h₂]
  rfl

theorem tcTransparent_string {lit : List Char} (h : ∀ c ∈ lit, c ≠ '"' ∧ c ≠ '\\') :
    TcTransparent ('"' :: lit ++ ['"']) := by
  intro k
  have heq : ('"' :: lit ++ ['"']) ++ k = '"' :: (lit ++ '"' :: k) := by simp
  rw [heq,
    show tcOutside ('"' :: (lit ++ '"' :: k)) = '"' :: tcInside (lit ++ '"' :: k) from rfl,
    tcInside_lit lit k h]
  simp

/-- Whitespace is copied verbatim by the trailing-comma pass. -/
theorem tcOutside_ws : ∀ {ws : List Char}, ws.all isJsonWs = true →
    ∀ k, tcOutside (ws ++ k) = ws ++ tcOutside k
  | [], _, _ => rfl
  | c :: ws, h, k => by
      rw [List.all_cons, Bool.and_eq_true] at h
      have h₁ : c ≠ '"' := by
        intro hc
        subst hc
        simp [isJsonWs] at h
      have h₂ : c ≠ ',' := by
        intro hc
        subst hc
        simp [isJsonWs] at h
      rw [List.cons_append, tcOutside_cons_plain h₁ h₂, tcOutside_ws h.2 k,
        List.cons_append]

/-! ### Transparency of parsed JSON text

The idempotence argument: every stretch of text the strict JSON parser
consumes is copied verbatim by both sanitizer passes. -/

theorem scTransparent_all_plain : ∀ {p : List Char},
    (∀ c ∈ p, c ≠ '"' ∧ c ≠ '/') → ScTransparent p
  | [], _ => scTransparent_nil
  | c :: p, h => by
      intro k
      have hc := h c (List.mem_cons_self c p)
      rw [List.cons_append, scOutside_cons_plain hc.1 hc.2,
        scTransparent_all_plain (fun x hx => h x (List.mem_cons_of_mem c hx)) k]
      cases scOutside k <;> rfl

theorem tcTransparent_all_plain : ∀ {p : List Char},
    (∀ c ∈ p, c ≠ '"' ∧ c ≠ ',') → TcTransparent p
  | [], _ => tcTransparent_nil
  | c :: p, h => by
      intro k
      have hc := h c (List.mem_cons_self c p)
      rw [List.cons_append, tcOutside_cons_plain hc.1 hc.2,
        tcTransparent_all_plain (fun x hx => h x (List.mem_cons_of_mem c hx)) k,
        List.cons_append]

/-- Whitespace never holds a scanner-significant character. -/
theorem ws_plain {c : Char} (h : isJsonWs c = true) :
    c ≠ '"' ∧ c ≠ '/' ∧ c ≠ ',' := by
  refine ⟨?_, ?_, ?_⟩ <;> rintro rfl <;> exact absurd h (by decide)

theorem scInside_strBody {body : List Char} (hb : StrBody body) : ∀ rest,
    scInside (body ++ '"' :: rest) = (scOutside rest).map fun r => body ++ '"' :: r := by
  induction hb with
  | nil =>
      intro rest
      rw [List.nil_append,
        show scInside ('"' :: rest) = (scOutside rest).map (fun r => '"' :: r) from rfl]
      cases scOutside rest <;> rfl
  | plain h₁ h₂ hb ih =>
      intro rest
      rw [List.cons_append, scInside_cons_plain h₁ h₂, ih rest]
      cases scOutside rest <;> rfl
  | esc c hb ih =>
      rename_i cs
      intro rest
      show scInside ('\\' :: c :: (cs ++ '"' :: rest)) = _
      rw [show scInside ('\\' :: c :: (cs ++ '"' :: rest)) =
          (scInside (cs ++ '"' :: rest)).map (fun r => '\\' :: c :: r) from rfl, ih rest]
      cases scOutside rest <;> rfl

theorem tcInside_strBody {body : List Char} (hb : StrBody body) : ∀ rest,
    tcInside (body ++ '"' :: rest) = body ++ '"' :: tcOutside rest := by
  induction hb with
  | nil =>
      intro rest
      rw [List.nil_append]
      rfl
  | plain h₁ h₂ hb ih =>
      intro rest
      rw [List.cons_append, tcInside_cons_plain h₁ h₂, ih rest, List.cons_append]
  | esc c hb ih =>
      rename_i cs
      intro rest
      show tcInside ('\\' :: c :: (cs ++ '"' :: rest)) = _
      rw [show tcInside ('\\' :: c :: (cs ++ '"' :: rest)) =
          '\\' :: c :: tcInside (cs ++ '"' :: rest) from rfl, ih rest]
      rfl

/-- A whole JSON string literal is transparent to the comment pass. -/
theorem scTransparent_jstring {body : List Char} (hb : StrBody body) :
    ScTransparent ('"' :: body ++ ['"']) := by
  intro k
  have heq : ('"' :: body ++ ['"']) ++ k = '"' :: (body ++ '"' :: k) := by simp
  rw [heq,
    show scOutside ('"' :: (body ++ '"' :: k)) =
      (scInside (body ++ '"' :: k)).map (fun r => '"' :: r) from rfl,
    scInside_strBody hb k]
  cases scOutside k with
  | error e => rfl
  | ok r =>
      show Except.ok ('"' :: (body ++ '"' :: r)) = Except.ok ('"' :: body ++ ['"'] ++ r)
      simp

/-- A whole JSON string literal is transparent to the comma pass. -/
theorem tcTransparent_jstring {body : List Char} (hb : StrBody body) :
    TcTransparent ('"' :: body ++ ['"']) := by
  intro k
  have heq : ('"' :: body ++ ['"']) ++ k = '"' :: (body ++ '"' :: k) := by simp
  rw [heq,
    show tcOutside ('"' :: (body ++ '"' :: k)) =
      '"' :: tcInside (body ++ '"' :: k) from rfl,
    tcInside_strBody hb k]
  simp

theorem isHexDigitCh_ne {c : Char} (h : isHexDigitCh c = true) :
    c ≠ '"' ∧ c ≠ '\\' := by
  refine ⟨?_, ?_⟩ <;> rintro rfl <;> exact absurd h (by decide)

/-- What `parseJString` consumes is the literal body plus its closing
quote, and the body is escape-structured. -/
theorem parseJString_decomp : ∀ (cs t r : List Char), parseJString cs = some (t, r) →
    ∃ body, cs = body ++ '"' :: r ∧ StrBody body := by
  suffices H : ∀ (n : Nat) (cs : List Char), cs.length ≤ n → ∀ t r,
      parseJString cs = some (t, r) → ∃ body, cs = body ++ '"' :: r ∧ StrBody body by
    intro cs t r h
    exact H cs.length cs le_rfl t r h
  intro n
  induction n with
  | zero =>
      intro cs hlen t r h
      rw [List.length_eq_zero.mp (Nat.le_zero.mp hlen)] at h
      exact absurd h (by simp [parseJString])
  | succ n ih =>
      intro cs hlen t r h
      rw [parseJString.eq_def] at h
      split at h
      · exact absurd h (by simp)
      · rename_i cs₁
        simp only [Option.some.injEq, Prod.mk.injEq] at h
        exact ⟨[], by simp [h.2], StrBody.nil⟩
      · rename_i h₁ h₂ h₃ h₄ cs₁
        split at h
        · dsimp only at h
          split at h
          · cases hp : parseJString cs₁ with
            | none => rw [hp] at h; exact absurd h (by simp)
            | some p =>
                rw [hp] at h
                simp only [Option.map, Option.some.injEq, Prod.mk.injEq] at h
                obtain ⟨body', hcs₁, hb'⟩ := ih cs₁ (by simp at hlen; omega) p.1 r
                  (by rw [hp, ← h.2])
                rename_i hhex _
                simp only [Bool.and_eq_true] at hhex
                refine ⟨'\\' :: 'u' :: h₁ :: h₂ :: h₃ :: h₄ :: body', by simp [hcs₁], ?_⟩
                exact StrBody.esc 'u'
                  (StrBody.plain (isHexDigitCh_ne hhex.1.1.1).1 (isHexDigitCh_ne hhex.1.1.1).2
                    (StrBody.plain (isHexDigitCh_ne hhex.1.1.2).1 (isHexDigitCh_ne hhex.1.1.2).2
                      (StrBody.plain (isHexDigitCh_ne hhex.1.2).1 (isHexDigitCh_ne hhex.1.2).2
                        (StrBody.plain (isHexDigitCh_ne hhex.2).1 (isHexDigitCh_ne hhex.2).2
                          hb'))))
          · exact absurd h (by simp)
        · exact absurd h (by simp)
      · rename_i _ e cs₁ hno
        have hrec : ∀ (d : Char), ((parseJString cs₁).map fun p => (d :: p.1, p.2)) = some (t, r) →
            ∃ body, '\\' :: e :: cs₁ = body ++ '"' :: r ∧ StrBody body := by
          intro d hmap
          cases hp : parseJString cs₁ with
          | none => rw [hp] at hmap; exact absurd hmap (by simp)
          | some p =>
              rw [hp] at hmap
              simp only [Option.map, Option.some.injEq, Prod.mk.injEq] at hmap
              obtain ⟨body', hcs₁, hb'⟩ := ih cs₁ (by simp at hlen; omega) p.1 r
                (by rw [hp, ← hmap.2])
              exact ⟨'\\' :: e :: body', by simp [hcs₁], StrBody.esc e hb'⟩
        split_ifs at h with he₁ he₂ he₃ he₄ he₅ he₆ he₇ he₈
        · exact hrec _ h
        · exact hrec _ h
        · exact hrec _ h
        · exact hrec _ h
        · exact hrec _ h
        · exact hrec _ h
        · exact hrec _ h
        · exact hrec _ h
      · rename_i _ c cs₁ hnq hnu hne
        split at h
        · exact absurd h (by simp)
        · cases hp : parseJString cs₁ with
          | none => rw [hp] at h; exact absurd h (by simp)
          | some p =>
              rw [hp] at h
              simp only [Option.map, Option.some.injEq, Prod.mk.injEq] at h
              obtain ⟨body', hcs₁, hb'⟩ := ih cs₁ (by simp at hlen; omega) p.1 r
                (by rw [hp, ← h.2])
              have hcq : c ≠ '"' := fun hc => hnq hc
              have hcb : c ≠ '\\' := by
                intro hc
                cases hcl : cs₁ with
                | nil =>
                    rw [hcl] at hp
                    exact absurd hp (by simp [parseJString])
                | cons e cs₂ => exact hne e cs₂ hc hcl
              exact ⟨c :: body', by simp [hcs₁], StrBody.plain hcq hcb hb'⟩

/-- What `parseDigits` consumes is a run of digits. -/
theorem parseDigits_decomp : ∀ (cs : List Char) (acc n : Nat) (r : List Char),
    parseDigits cs acc = (n, r) → ∃ ds, cs = ds ++ r ∧ ∀ c ∈ ds, isDigitCh c = true
  | [], acc, n, r, h => by
      injection h with _ h2
      exact ⟨[], by simp [h2], by simp⟩
  | c :: cs, acc, n, r, h => by
      rw [show parseDigits (c :: cs) acc =
          if isDigitCh c then parseDigits cs (10 * acc + digitVal c) else (acc, c :: cs)
          from rfl] at h
      by_cases hd : isDigitCh c
      · rw [if_pos hd] at h
        obtain ⟨ds, hcs, hds⟩ := parseDigits_decomp cs _ n r h
        refine ⟨c :: ds, by rw [List.cons_append, ← hcs], ?_⟩
        intro x hx
        rcases List.mem_cons.mp hx with rfl | hx'
        · exact hd
        · exact hds x hx'
      · rw [if_neg hd] at h
        injection h with _ h2
        exact ⟨[], by simp [h2], by simp⟩

/-- What `parseNatJson` consumes is a nonempty run of digits. -/
theorem parseNatJson_decomp (cs : List Char) (n : Nat) (r : List Char)
    (h : parseNatJson cs = some (n, r)) :
    ∃ ds, cs = ds ++ r ∧ ds ≠ [] ∧ ∀ c ∈ ds, isDigitCh c = true := by
  rw [parseNatJson.eq_def] at h
  split at h
  · exact absurd h (by simp)
  · rename_i cs₁
    simp only [Option.some.injEq, Prod.mk.injEq] at h
    exact ⟨['0'], by simp [h.2], by simp, by decide⟩
  · rename_i c cs₁ hno
    split at h
    · rename_i hd
      simp only [Option.some.injEq] at h
      obtain ⟨ds, hcs, hds⟩ := parseDigits_decomp cs₁ (digitVal c) n r (by rw [h])
      refine ⟨c :: ds, by rw [List.cons_append, ← hcs], by simp, ?_⟩
      intro x hx
      rcases List.mem_cons.mp hx with rfl | hx'
      · exact hd
      · exact hds x hx'
    · exact absurd h (by simp)

theorem firstNonWs_append {q : List Char} {c : Char}
    (h : firstNonWs q = some c) (k : List Char) : firstNonWs (q ++ k) = some c := by
  unfold firstNonWs at *
  rw [List.dropWhile_append]
  cases hq : q.dropWhile isJsonWs with
  | nil => rw [hq] at h; exact absurd h (by simp)
  | cons d ds =>
      rw [hq] at h
      simpa using h

theorem firstNonWs_ws_cons {w : List Char} {c : Char} (q : List Char)
    (hw : ∀ x ∈ w, isJsonWs x = true) (hc : isJsonWs c = false) :
    firstNonWs (w ++ c :: q) = some c := by
  unfold firstNonWs
  rw [List.dropWhile_append_of_pos hw, List.dropWhile_cons, hc]
  rfl

theorem closesAfterWs_false {cs : List Char} {c : Char}
    (h : firstNonWs cs = some c) (h₁ : c ≠ ']') (h₂ : c ≠ '\x7d') :
    closesAfterWs cs = false := by
  unfold closesAfterWs
  unfold firstNonWs at h
  cases hq : cs.dropWhile isJsonWs with
  | nil => rfl
  | cons d ds =>
      rw [hq] at h
      simp only [List.head?_cons, Option.some.injEq] at h
      subst h
      split <;> simp_all

theorem tcTransparent_comma {q : List Char} (hq : TcTransparent q) {c : Char}
    (hc : firstNonWs q = some c) (h₁ : c ≠ ']') (h₂ : c ≠ '\x7d') :
    TcTransparent (',' :: q) := by
  intro k
  show tcOutside (',' :: (q ++ k)) = _
  have hcl : ¬ (closesAfterWs (q ++ k) = true) := by
    rw [closesAfterWs_false (firstNonWs_append hc k) h₁ h₂]
    simp
  rw [show tcOutside (',' :: (q ++ k)) =
      if closesAfterWs (q ++ k) = true then tcOutside (q ++ k)
      else ',' :: tcOutside (q ++ k) from rfl,
    if_neg hcl, hq k, List.cons_append]

theorem jchunk_nil : JChunk [] :=
  ⟨scTransparent_nil, tcTransparent_nil⟩

theorem jchunk_append {p q : List Char} (hp : JChunk p) (hq : JChunk q) :
    JChunk (p ++ q) :=
  ⟨scTransparent_append hp.1 hq.1, tcTransparent_append hp.2 hq.2⟩

theorem jchunk_plain {p : List Char} (h : ∀ c ∈ p, c ≠ '"' ∧ c ≠ '/' ∧ c ≠ ',') :
    JChunk p :=
  ⟨scTransparent_all_plain fun c hc => ⟨(h c hc).1, (h c hc).2.1⟩,
    tcTransparent_all_plain fun c hc => ⟨(h c hc).1, (h c hc).2.2⟩⟩

theorem jchunk_jstring {body : List Char} (hb : StrBody body) :
    JChunk ('"' :: body ++ ['"']) :=
  ⟨scTransparent_jstring hb, tcTransparent_jstring hb⟩

theorem jchunk_ws (cs : List Char) : JChunk (cs.takeWhile isJsonWs) :=
  jchunk_plain fun c hc => by
    have := List.mem_takeWhile_imp hc
    exact ⟨(ws_plain this).1, (ws_plain this).2.1, (ws_plain this).2.2⟩

theorem jchunk_comma {q : List Char} (hq : JChunk q) {c : Char}
    (hc : firstNonWs q = some c) (h₁ : c ≠ ']') (h₂ : c ≠ '\x7d') :
    JChunk (',' :: q) := by
  constructor
  · have : (',' :: q) = [','] ++ q := rfl
    rw [this]
    exact scTransparent_append (scTransparent_plain (by decide) (by decide)) hq.1
  · exact tcTransparent_comma hq.2 hc h₁ h₂

theorem isDigitCh_facts {c : Char} (h : isDigitCh c = true) :
    isJsonWs c = false ∧ c ≠ ']' ∧ c ≠ '\x7d' ∧ c ≠ '"' ∧ c ≠ '/' ∧ c ≠ ',' := by
  simp only [isDigitCh, Bool.and_eq_true, decide_eq_true_eq] at h
  refine ⟨?_, ?_, ?_, ?_, ?_, ?_⟩
  · cases hw : isJsonWs c
    · rfl
    · simp only [isJsonWs, Bool.or_eq_true, decide_eq_true_eq] at hw
      rcases hw with ((rfl | rfl) | rfl) | rfl <;> revert h <;> decide
  all_goals (rintro rfl; revert h; decide)

theorem skipWs_split (l : List Char) : l = l.takeWhile isJsonWs ++ skipWs l :=
  (List.takeWhile_append_dropWhile isJsonWs l).symm

theorem parseValue_succ (fuel : Nat) (cs : List Char) :
    parseValue (fuel + 1) cs =
      match skipWs cs with
      | 'n' :: 'u' :: 'l' :: 'l' :: rest => some (.null, rest)
      | 't' :: 'r' :: 'u' :: 'e' :: rest => some (.bool true, rest)
      | 'f' :: 'a' :: 'l' :: 's' :: 'e' :: rest => some (.bool false, rest)
      | '"' :: rest => (parseJString rest).map fun p => (.str ⟨p.1⟩, p.2)
      | '-' :: rest => (parseNatJson rest).map fun p => (.int (-(p.1 : Int)), p.2)
      | '[' :: rest =>
          match skipWs rest with
          | ']' :: r => some (.array [], r)
          | r => (parseItems fuel r).map fun p => (.array p.1, p.2)
      | '\x7b' :: rest =>
          match skipWs rest with
          | '\x7d' :: r => some (.dict [], r)
          | r => (parseMembers fuel r).map fun p => (.dict p.1, p.2)
      | c :: rest =>
          if isDigitCh c then (parseNatJson (c :: rest)).map fun p => (.int (p.1 : Int), p.2)
          else none
      | [] => none := rfl

theorem parseItems_succ (fuel : Nat) (cs : List Char) :
    parseItems (fuel + 1) cs =
      (parseValue fuel cs).bind fun q =>
        match skipWs q.2 with
        | ',' :: r' => (parseItems fuel r').map fun p => (q.1 :: p.1, p.2)
        | ']' :: r' => some ([q.1], r')
        | _ => none := rfl

theorem parseMembers_succ (fuel : Nat) (cs : List Char) :
    parseMembers (fuel + 1) cs =
      match skipWs cs with
      | '"' :: r =>
          (parseJString r).bind fun kp =>
            match skipWs kp.2 with
            | ':' :: r₂ =>
                (parseValue fuel r₂).bind fun vp =>
                  match skipWs vp.2 with
                  | ',' :: r₄ => (parseMembers fuel r₄).map fun p => ((⟨kp.1⟩, vp.1) :: p.1, p.2)
                  | '\x7d' :: r₄ => some ([(⟨kp.1⟩, vp.1)], r₄)
                  | _ => none
            | _ => none
      | _ => none := rfl

/-- Build `ParsedChunk` from a verbatim core that begins the meaningful
text. -/
theorem parsedChunk_mk {cs rest : List Char} (c₀ : Char) (q : List Char)
    (heq : skipWs cs = (c₀ :: q) ++ rest) (hch : JChunk (c₀ :: q))
    (hc₀ : isJsonWs c₀ = false) (h₁ : c₀ ≠ ']') (h₂ : c₀ ≠ '\x7d') :
    ParsedChunk cs rest := by
  refine ⟨cs.takeWhile isJsonWs ++ c₀ :: q, c₀, ?_,
    jchunk_append (jchunk_ws cs) hch,
    firstNonWs_ws_cons _ (fun x hx => List.mem_takeWhile_imp hx) hc₀, h₁, h₂⟩
  rw [List.append_assoc, ← heq]
  exact skipWs_split cs

/-- Every successful parse consumed sanitizer-verbatim text whose first
meaningful character opens a value, never a closing bracket. -/
theorem parse_chunks : ∀ fuel : Nat,
    (∀ cs v rest, parseValue fuel cs = some (v, rest) → ParsedChunk cs rest) ∧
    (∀ cs xs rest, parseItems fuel cs = some (xs, rest) → ParsedChunk cs rest) ∧
    (∀ cs es rest, parseMembers fuel cs = some (es, rest) → ParsedChunk cs rest) := by
  intro fuel
  induction fuel with
  | zero =>
      refine ⟨?_, ?_, ?_⟩ <;> intro cs a rest h <;>
        exact absurd h (by simp [parseValue, parseItems, parseMembers])
  | succ fuel ih =>
      obtain ⟨ihV, ihI, ihM⟩ := ih
      refine ⟨?_, ?_, ?_⟩
      · intro cs v rest h
        rw [parseValue_succ] at h
        split at h
        · rename_i rest₁ heq
          simp only [Option.some.injEq, Prod.mk.injEq] at h
          rw [h.2] at heq
          exact parsedChunk_mk 'n' ['u', 'l', 'l'] heq (jchunk_plain (by decide))
            (by decide) (by decide) (by decide)
        · rename_i rest₁ heq
          simp only [Option.some.injEq, Prod.mk.injEq] at h
          rw [h.2] at heq
          exact parsedChunk_mk 't' ['r', 'u', 'e'] heq (jchunk_plain (by decide))
            (by decide) (by decide) (by decide)
        · rename_i rest₁ heq
          simp only [Option.some.injEq, Prod.mk.injEq] at h
          rw [h.2] at heq
          exact parsedChunk_mk 'f' ['a', 'l', 's', 'e'] heq (jchunk_plain (by decide))
            (by decide) (by decide) (by decide)
        · rename_i rest₁ heq
          cases hp : parseJString rest₁ with
          | none => rw [hp] at h; exact absurd h (by simp)
          | some pr =>
              rw [hp] at h
              simp only [Option.map, Option.some.injEq, Prod.mk.injEq] at h
              obtain ⟨body, hdec, hb⟩ := parseJString_decomp rest₁ pr.1 pr.2 hp
              refine parsedChunk_mk '"' (body ++ ['"']) ?_ (jchunk_jstring hb)
                (by decide) (by decide) (by decide)
              rw [heq, hdec, h.2]
              simp
        · rename_i rest₁ heq
          cases hp : parseNatJson rest₁ with
          | none => rw [hp] at h; exact absurd h (by simp)
          | some pr =>
              rw [hp] at h
              simp only [Option.map, Option.some.injEq, Prod.mk.injEq] at h
              obtain ⟨ds, hdec, hne, hds⟩ := parseNatJson_decomp rest₁ pr.1 pr.2 hp
              refine parsedChunk_mk '-' ds ?_ ?_ (by decide) (by decide) (by decide)
              · rw [heq, hdec, h.2]
                simp
              · refine jchunk_plain ?_
                intro x hx
                rcases List.mem_cons.mp hx with rfl | hx'
                · exact ⟨by decide, by decide, by decide⟩
                · have := isDigitCh_facts (hds x hx')
                  exact ⟨this.2.2.2.1, this.2.2.2.2.1, this.2.2.2.2.2⟩
        · rename_i rest₁ heq
          split at h
          · rename_i r heq₂
            simp only [Option.some.injEq, Prod.mk.injEq] at h
            refine parsedChunk_mk '[' (rest₁.takeWhile isJsonWs ++ [']']) ?_ ?_
              (by decide) (by decide) (by decide)
            · have hr₁ : rest₁ = rest₁.takeWhile isJsonWs ++ (']' :: rest) := by
                conv_lhs => rw [skipWs_split rest₁]
                rw [heq₂, h.2]
              conv_lhs => rw [heq, hr₁]
              simp
            · show JChunk (['['] ++ (rest₁.takeWhile isJsonWs ++ [']']))
              exact jchunk_append (jchunk_plain (by decide))
                (jchunk_append (jchunk_ws rest₁) (jchunk_plain (by decide)))
          · cases hi : parseItems fuel (skipWs rest₁) with
            | none => rw [hi] at h; exact absurd h (by simp)
            | some pp =>
                rw [hi] at h
                simp only [Option.map, Option.some.injEq, Prod.mk.injEq] at h
                obtain ⟨pI, cI, hIeq, hIch, hIf, hI1, hI2⟩ :=
                  ihI (skipWs rest₁) pp.1 pp.2 (by rw [hi])
                refine parsedChunk_mk '[' (rest₁.takeWhile isJsonWs ++ pI) ?_ ?_
                  (by decide) (by decide) (by decide)
                · have hr₁ : rest₁ = rest₁.takeWhile isJsonWs ++ (pI ++ rest) := by
                    conv_lhs => rw [skipWs_split rest₁]
                    rw [hIeq, h.2]
                  conv_lhs => rw [heq, hr₁]
                  simp
                · show JChunk (['['] ++ (rest₁.takeWhile isJsonWs ++ pI))
                  exact jchunk_append (jchunk_plain (by decide))
                    (jchunk_append (jchunk_ws rest₁) hIch)
        · rename_i rest₁ heq
          split at h
          · rename_i r heq₂
            simp only [Option.some.injEq, Prod.mk.injEq] at h
            refine parsedChunk_mk '\x7b' (rest₁.takeWhile isJsonWs ++ ['\x7d']) ?_ ?_
              (by decide) (by decide) (by decide)
            · have hr₁ : rest₁ = rest₁.takeWhile isJsonWs ++ ('\x7d' :: rest) := by
                conv_lhs => rw [skipWs_split rest₁]
                rw [heq₂, h.2]
              conv_lhs => rw [heq, hr₁]
              simp
            · show JChunk (['\x7b'] ++ (rest₁.takeWhile isJsonWs ++ ['\x7d']))
              exact jchunk_append (jchunk_plain (by decide))
                (jchunk_append (jchunk_ws rest₁) (jchunk_plain (by decide)))
          · cases hi : parseMembers fuel (skipWs rest₁) with
            | none => rw [hi] at h; exact absurd h (by simp)
            | some pp =>
                rw [hi] at h
                simp only [Option.map, Option.some.injEq, Prod.mk.injEq] at h
                obtain ⟨pM, cM, hMeq, hMch, hMf, hM1, hM2⟩ :=
                  ihM (skipWs rest₁) pp.1 pp.2 (by rw [hi])
                refine parsedChunk_mk '\x7b' (rest₁.takeWhile isJsonWs ++ pM) ?_ ?_
                  (by decide) (by decide) (by decide)
                · have hr₁ : rest₁ = rest₁.takeWhile isJsonWs ++ (pM ++ rest) := by
                    conv_lhs => rw [skipWs_split rest₁]
                    rw [hMeq, h.2]
                  conv_lhs => rw [heq, hr₁]
                  simp
                · show JChunk (['\x7b'] ++ (rest₁.takeWhile isJsonWs ++ pM))
                  exact jchunk_append (jchunk_plain (by decide))
                    (jchunk_append (jchunk_ws rest₁) hMch)
        · rename_i c rest₁ _ _ _ _ _ _ _ heq
          split at h
          · rename_i hd
            cases hp : parseNatJson (c :: rest₁) with
            | none => rw [hp] at h; exact absurd h (by simp)
            | some pr =>
                rw [hp] at h
                simp only [Option.map, Option.some.injEq, Prod.mk.injEq] at h
                obtain ⟨ds, hdec, hne, hds⟩ := parseNatJson_decomp (c :: rest₁) pr.1 pr.2 hp
                cases hds' : ds with
                | nil =>
                    rw [hds'] at hne
                    exact absurd rfl hne
                | cons d ds' =>
                    rw [hds'] at hdec hds
                    have hdc : d = c := by
                      rw [List.cons_append] at hdec
                      injection hdec with h1 _
                      exact h1.symm
                    subst hdc
                    have hfacts := isDigitCh_facts (hds d (List.mem_cons_self d ds'))
                    refine parsedChunk_mk d ds' ?_ ?_ hfacts.1 hfacts.2.1 hfacts.2.2.1
                    · rw [heq, hdec, h.2]
                    · refine jchunk_plain ?_
                      intro x hx
                      have := isDigitCh_facts (hds x hx)
                      exact ⟨this.2.2.2.1, this.2.2.2.2.1, this.2.2.2.2.2⟩
          · exact absurd h (by simp)
        · exact absurd h (by simp)
      · intro cs xs rest h
        rw [parseItems_succ] at h
        cases hv : parseValue fuel cs with
        | none => rw [hv] at h; exact absurd h (by simp)
        | some q =>
            rw [hv] at h
            simp only [Option.some_bind] at h
            obtain ⟨pV, cV, hVeq, hVch, hVf, hV1, hV2⟩ := ihV cs q.1 q.2 (by rw [hv])
            split at h
            · rename_i r' heq₂
              cases hi : parseItems fuel r' with
              | none => rw [hi] at h; exact absurd h (by simp)
              | some pp =>
                  rw [hi] at h
                  simp only [Option.map, Option.some.injEq, Prod.mk.injEq] at h
                  obtain ⟨pI, cI, hIeq, hIch, hIf, hI1, hI2⟩ :=
                    ihI r' pp.1 pp.2 (by rw [hi])
                  refine ⟨pV ++ (q.2.takeWhile isJsonWs ++ ',' :: pI), cV, ?_, ?_,
                    firstNonWs_append hVf _, hV1, hV2⟩
                  · have hq2 : q.2 = q.2.takeWhile isJsonWs ++ (',' :: (pI ++ rest)) := by
                      conv_lhs => rw [skipWs_split q.2]
                      rw [heq₂, hIeq, h.2]
                    conv_lhs => rw [hVeq, hq2]
                    simp
                  · exact jchunk_append hVch (jchunk_append (jchunk_ws q.2)
                      (jchunk_comma hIch hIf hI1 hI2))
            · rename_i r' heq₂
              simp only [Option.some.injEq, Prod.mk.injEq] at h
              refine ⟨pV ++ (q.2.takeWhile isJsonWs ++ [']']), cV, ?_, ?_,
                firstNonWs_append hVf _, hV1, hV2⟩
              · have hq2 : q.2 = q.2.takeWhile isJsonWs ++ (']' :: rest) := by
                  conv_lhs => rw [skipWs_split q.2]
                  rw [heq₂, h.2]
                conv_lhs => rw [hVeq, hq2]
                simp
              · exact jchunk_append hVch (jchunk_append (jchunk_ws q.2)
                  (jchunk_plain (by decide)))
            · exact absurd h (by simp)
      · intro cs es rest h
        rw [parseMembers_succ] at h
        split at h
        · rename_i r heq
          cases hk : parseJString r with
          | none => rw [hk] at h; exact absurd h (by simp)
          | some kp =>
              rw [hk] at h
              simp only [Option.some_bind] at h
              obtain ⟨body, hdec, hb⟩ := parseJString_decomp r kp.1 kp.2 hk
              split at h
              · rename_i r₂ heq₂
                cases hv : parseValue fuel r₂ with
                | none => rw [hv] at h; exact absurd h (by simp)
                | some vp =>
                    rw [hv] at h
                    simp only [Option.some_bind] at h
                    obtain ⟨pV, cV, hVeq, hVch, hVf, hV1, hV2⟩ :=
                      ihV r₂ vp.1 vp.2 (by rw [hv])
                    split at h
                    · rename_i r₄ heq₄
                      cases hm : parseMembers fuel r₄ with
                      | none => rw [hm] at h; exact absurd h (by simp)
                      | some pp =>
                          rw [hm] at h
                          simp only [Option.map, Option.some.injEq, Prod.mk.injEq] at h
                          obtain ⟨pM, cM, hMeq, hMch, hMf, hM1, hM2⟩ :=
                            ihM r₄ pp.1 pp.2 (by rw [hm])
                          refine parsedChunk_mk '"'
                            ((body ++ ['"']) ++ (kp.2.takeWhile isJsonWs ++ ':' :: pV ++
                              (vp.2.takeWhile isJsonWs ++ ',' :: pM))) ?_ ?_
                            (by decide) (by decide) (by decide)
                          · have hvp2 : vp.2 =
                                vp.2.takeWhile isJsonWs ++ (',' :: (pM ++ rest)) := by
                              conv_lhs => rw [skipWs_split vp.2]
                              rw [heq₄, hMeq, h.2]
                            have hkp2 : kp.2 =
                                kp.2.takeWhile isJsonWs ++ (':' :: (pV ++ vp.2)) := by
                              conv_lhs => rw [skipWs_split kp.2]
                              rw [heq₂, hVeq]
                            conv_lhs => rw [heq, hdec, hkp2, hvp2]
                            simp
                          · show JChunk (('"' :: body ++ ['"']) ++
                              ((kp.2.takeWhile isJsonWs ++ (':' :: pV)) ++
                                (vp.2.takeWhile isJsonWs ++ ',' :: pM)))
                            refine jchunk_append (jchunk_jstring hb)
                              (jchunk_append (jchunk_append (jchunk_ws kp.2) ?_)
                                (jchunk_append (jchunk_ws vp.2)
                                  (jchunk_comma hMch hMf hM1 hM2)))
                            show JChunk ([':'] ++ pV)
                            exact jchunk_append (jchunk_plain (by decide)) hVch
                    · rename_i r₄ heq₄
                      simp only [Option.some.injEq, Prod.mk.injEq] at h
                      refine parsedChunk_mk '"'
                        ((body ++ ['"']) ++ (kp.2.takeWhile isJsonWs ++ ':' :: pV ++
                          (vp.2.takeWhile isJsonWs ++ ['\x7d']))) ?_ ?_
                        (by decide) (by decide) (by decide)
                      · have hvp2 : vp.2 =
                            vp.2.takeWhile isJsonWs ++ ('\x7d' :: rest) := by
                          conv_lhs => rw [skipWs_split vp.2]
                          rw [heq₄, h.2]
                        have hkp2 : kp.2 =
                            kp.2.takeWhile isJsonWs ++ (':' :: (pV ++ vp.2)) := by
                          conv_lhs => rw [skipWs_split kp.2]
                          rw [heq₂, hVeq]
                        conv_lhs => rw [heq, hdec, hkp2, hvp2]
                        simp
                      · show JChunk (('"' :: body ++ ['"']) ++
                          ((kp.2.takeWhile isJsonWs ++ (':' :: pV)) ++
                            (vp.2.takeWhile isJsonWs ++ ['\x7d'])))
                        refine jchunk_append (jchunk_jstring hb)
                          (jchunk_append (jchunk_append (jchunk_ws kp.2) ?_)
                            (jchunk_append (jchunk_ws vp.2) (jchunk_plain (by decide))))
                        show JChunk ([':'] ++ pV)
                        exact jchunk_append (jchunk_plain (by decide)) hVch
                    · exact absurd h (by simp)
              · exact absurd h (by simp)
        · exact absurd h (by simp)

/-- Witness for C1 at the spec's example input, key order reversed. -/
theorem plist_to_json_sorted_keys_witness :
    dumpsV 0 (.dict [("b", .int 1), ("a", .int 2)]) =
      dumpsV 0 (.dict [("a", .int 2), ("b", .int 1)]) ∧
    (∀ rs, dumpsKV 1 [("b", TreeValue.int 1), ("a", TreeValue.int 2)] = some rs →
      ((sortByKey rs).map Prod.fst).Sorted (· ≤ ·)) ∧
    json_dumps (.dict [("b", .int 1), ("a", .int 2)]) =
      some "\x7b\n    \"a\": 2,\n    \"b\": 1\n\x7d" :=
  plist_to_json_sorted_keys [("b", .int 1), ("a", .int 2)] [("a", .int 2), ("b", .int 1)] 0
    (by decide) (List.Perm.swap _ _ _)

/-- C2: for every input text, the sanitizer passes the characters inside a
string literal — commas and the comment-like sequences `//` and `/*`
included — through unchanged: within a literal, both passes copy every
character other than quote and backslash verbatim, whatever text surrounds
the literal; and the spec's URL example is returned untouched. -/
theorem sanitize_string_content_untouched :
    (∀ (lit rest : List Char), (∀ c ∈ lit, c ≠ '"' ∧ c ≠ '\\') →
      scInside (lit ++ '"' :: rest) = (scOutside rest).map fun r => lit ++ '"' :: r) ∧
    (∀ (lit rest : List Char), (∀ c ∈ lit, c ≠ '"' ∧ c ≠ '\\') →
      tcInside (lit ++ '"' :: rest) = lit ++ '"' :: tcOutside rest) ∧
    sanitize_json "\x7b\"a\": \"http://example.com\"\x7d" true =
      .ok "\x7b\"a\": \"http://example.com\"\x7d" :=
  ⟨scInside_lit, tcInside_lit, rfl⟩

/-- Witness for C2: a literal holding `//`, `/*` and a comma. -/
theorem sanitize_string_content_untouched_witness :
    scInside ("http://e,/*x*/".data ++ '"' :: "\x7d".data) =
      (scOutside "\x7d".data).map (fun r => "http://e,/*x*/".data ++ '"' :: r) ∧
    tcInside ("http://e,/*x*/".data ++ '"' :: "\x7d".data) =
      "http://e,/*x*/".data ++ '"' :: tcOutside "\x7d".data ∧
    sanitize_json "\x7b\"a\": \"http://example.com\"\x7d" true =
      .ok "\x7b\"a\": \"http://example.com\"\x7d" :=
  ⟨sanitize_string_content_untouched.1 _ _ (by decide),
    sanitize_string_content_untouched.2.1 _ _ (by decide),
    sanitize_string_content_untouched.2.2⟩

/-- C5: an input that, outside any string literal, opens a block comment
`/*` that no `*/` ever closes makes the sanitizer fail with
`MalformedInputError`, for either trailing-comma setting. -/
theorem sanitize_unterminated_block_comment
    (p cs : List Char) (strip : Bool)
    (hp : ScTransparent p) (hcs : hasBlockEnd cs = false) :
    sanitize_json ⟨p ++ '/' :: '*' :: cs⟩ strip = .error .unterminatedComment := by
  unfold sanitize_json
  show (scOutside (p ++ '/' :: '*' :: cs)).map _ = _
  rw [hp ('/' :: '*' :: cs),
    show scOutside ('/' :: '*' :: cs) = scBlock cs from rfl,
    scBlock_error cs hcs]
  rfl

/-- Witness for C5 on the spec's example input. -/
theorem sanitize_unterminated_block_comment_witness :
    sanitize_json "\x7b\"a\": 1 /* unterminated" true = .error .unterminatedComment := by
  have hp : ScTransparent "\x7b\"a\": 1 ".data := by
    have he : "\x7b\"a\": 1 ".data =
        ['\x7b'] ++ (('"' :: "a".data ++ ['"']) ++
          ([':'] ++ ([' '] ++ (['1'] ++ [' '])))) := by decide
    rw [he]
    exact scTransparent_append (scTransparent_plain (by decide) (by decide))
      (scTransparent_append (scTransparent_string (by decide))
        (scTransparent_append (scTransparent_plain (by decide) (by decide))
          (scTransparent_append (scTransparent_plain (by decide) (by decide))
            (scTransparent_append (scTransparent_plain (by decide) (by decide))
              (scTransparent_plain (by decide) (by decide))))))
  have hmain := sanitize_unterminated_block_comment "\x7b\"a\": 1 ".data
    " unterminated".data true hp (by decide)
  have heq : ("\x7b\"a\": 1 /* unterminated" : String) =
      ⟨"\x7b\"a\": 1 ".data ++ '/' :: '*' :: " unterminated".data⟩ := by decide
  rw [heq]
  exact hmain

/-- C6: with trailing-comma stripping enabled, a comma outside a string
literal that only whitespace separates from a closing `]` or `\x7d` is
deleted; and on the spec's example, where a comment stands between the
comma and the brace, the full sanitizer (comment pass first) yields strict
JSON with no dangling comma. -/
theorem sanitize_trailing_comma
    (p ws k : List Char) (close : Char) (hp : TcTransparent p)
    (hws : ws.all isJsonWs = true) (hclose : close = ']' ∨ close = '\x7d') :
    tcOutside (p ++ ',' :: (ws ++ close :: k)) = p ++ ws ++ close :: tcOutside k ∧
    sanitize_json "\x7b\"a\":1, /* x */ \x7d" true = .ok "\x7b\"a\":1  \x7d" := by
  constructor
  · rw [hp]
    have hdropws : ws.dropWhile isJsonWs = [] := by
      rw [List.dropWhile_eq_nil_iff]
      intro x hx
      exact (List.all_eq_true.mp hws) x hx
    have hclws : isJsonWs close = false := by
      rcases hclose with rfl | rfl <;> rfl
    have hdrop : (ws ++ close :: k).dropWhile isJsonWs = close :: k := by
      rw [List.dropWhile_append, hdropws]
      simp [List.dropWhile_cons, hclws]
    have hcloses : closesAfterWs (ws ++ close :: k) = true := by
      unfold closesAfterWs
      rw [hdrop]
      rcases hclose with rfl | rfl <;> rfl
    rw [show tcOutside (',' :: (ws ++ close :: k)) =
        if closesAfterWs (ws ++ close :: k) then tcOutside (ws ++ close :: k)
        else ',' :: tcOutside (ws ++ close :: k) from rfl,
      if_pos hcloses, tcOutside_ws hws]
    have hq : close ≠ '"' ∧ close ≠ ',' := by
      rcases hclose with rfl | rfl <;> exact ⟨by decide, by decide⟩
    rw [tcOutside_cons_plain hq.1 hq.2]
    simp
  · rfl

/-- Witness for C6: comma, one space, closing brace. -/
theorem sanitize_trailing_comma_witness :
    tcOutside ("\x7b\"a\":1".data ++ ',' :: ([' '] ++ '\x7d' :: ([] : List Char))) =
      "\x7b\"a\":1".data ++ [' '] ++ '\x7d' :: tcOutside [] ∧
    sanitize_json "\x7b\"a\":1, /* x */ \x7d" true = .ok "\x7b\"a\":1  \x7d" := by
  have hp : TcTransparent "\x7b\"a\":1".data := by
    have he : "\x7b\"a\":1".data =
        ['\x7b'] ++ (('"' :: "a".data ++ ['"']) ++ ([':'] ++ ['1'])) := by decide
    rw [he]
    exact tcTransparent_append (tcTransparent_plain (by decide) (by decide))
      (tcTransparent_append (tcTransparent_string (by decide))
        (tcTransparent_append (tcTransparent_plain (by decide) (by decide))
          (tcTransparent_plain (by decide) (by decide))))
  exact sanitize_trailing_comma "\x7b\"a\":1".data [' '] [] '\x7d' hp (by decide)
    (Or.inr rfl)

/-! ### Null rejection: the plist writer refuses every tree with a null -/

mutual

theorem plistWriteV_none_of_null : ∀ (v : TreeValue) (lvl : Nat),
    containsNullV v = true → plistWriteV lvl v = none
  | .null, _, _ => rfl
  | .bool _, _, h => absurd h (by simp [containsNullV])
  | .int _, _, h => absurd h (by simp [containsNullV])
  | .str _, _, h => absurd h (by simp [containsNullV])
  | .data _, _, h => absurd h (by simp [containsNullV])
  | .date _, _, h => absurd h (by simp [containsNullV])
  | .array [], _, h => absurd h (by simp [containsNullV, containsNullL])
  | .array (v :: vs), lvl, h => by
      have h' : containsNullL (v :: vs) = true := h
      rw [show plistWriteV lvl (.array (v :: vs)) =
          (plistWriteL (lvl + 1) (v :: vs)).bind (fun body =>
            some (plistLine lvl "<array>".data ++ body ++
              plistLine lvl "</array>".data)) from rfl,
        plistWriteL_none_of_null (v :: vs) (lvl + 1) h']
      rfl
  | .dict [], _, h => absurd h (by simp [containsNullV, containsNullKV])
  | .dict (e :: es), lvl, h => by
      have h' : containsNullKV (e :: es) = true := h
      rw [show plistWriteV lvl (.dict (e :: es)) =
          (plistWriteKV (lvl + 1) (e :: es)).bind (fun rs =>
            some (plistLine lvl "<dict>".data ++
              ((sortByKey rs).map Prod.snd).flatten ++
              plistLine lvl "</dict>".data)) from rfl,
        plistWriteKV_none_of_null (e :: es) (lvl + 1) h']
      rfl

theorem plistWriteL_none_of_null : ∀ (l : List TreeValue) (lvl : Nat),
    containsNullL l = true → plistWriteL lvl l = none
  | [], _, h => absurd h (by simp [containsNullL])
  | v :: vs, lvl, h => by
      rw [show plistWriteL lvl (v :: vs) =
          (plistWriteV lvl v).bind (fun r =>
            (plistWriteL lvl vs).bind fun rs => some (r ++ rs)) from rfl]
      have h2 : containsNullV v = true ∨ containsNullL vs = true := by
        cases hcv : containsNullV v with
        | true => exact Or.inl rfl
        | false =>
            right
            have h' : (containsNullV v || containsNullL vs) = true := h
            rw [hcv] at h'
            simpa using h'
      rcases h2 with hv | hvs
      · rw [plistWriteV_none_of_null v lvl hv]
        rfl
      · cases plistWriteV lvl v with
        | none => rfl
        | some r =>
            rw [plistWriteL_none_of_null vs lvl hvs]
            rfl

theorem plistWriteKV_none_of_null : ∀ (l : List (String × TreeValue)) (lvl : Nat),
    containsNullKV l = true → plistWriteKV lvl l = none
  | [], _, h => absurd h (by simp [containsNullKV])
  | e :: es, lvl, h => by
      rw [show plistWriteKV lvl (e :: es) =
          (plistEscape e.1.data).bind (fun k =>
            (plistWriteV lvl e.2).bind fun r =>
              (plistWriteKV lvl es).bind fun rs =>
                some ((e.1, plistLine lvl ("<key>".data ++ k ++ "</key>".data) ++ r) :: rs))
            from rfl]
      cases plistEscape e.1.data with
      | none => rfl
      | some k =>
          have h2 : containsNullV e.2 = true ∨ containsNullKV es = true := by
            cases hcv : containsNullV e.2 with
            | true => exact Or.inl rfl
            | false =>
                right
                have h' : (containsNullV e.2 || containsNullKV es) = true := h
                rw [hcv] at h'
                simpa using h'
          rcases h2 with hv | hes
          · rw [plistWriteV_none_of_null e.2 lvl hv]
            rfl
          · cases plistWriteV lvl e.2 with
            | none => rfl
            | some r =>
                rw [plistWriteKV_none_of_null es lvl hes]
                rfl

end

/-- C7: a conversion command writes only a full converted text, or nothing:
when reading fails the run stops before converting; when converting fails
the run stops before any write; only a successful `convert` reaches the
write step, and then the whole converted text is the output. -/
theorem convert_no_partial_output (text : String) :
    (readPlistModel text = none → plistToJsonRun text = .noOutput) ∧
    (∀ tree, readPlistModel text = some tree → json_dumps tree = none →
      plistToJsonRun text = .noOutput) ∧
    (∀ tree out, readPlistModel text = some tree → json_dumps tree = some out →
      plistToJsonRun text = .written out) ∧
    (jsonToPlistRead text = none → jsonToPlistRun text = .noOutput) ∧
    (∀ tree, jsonToPlistRead text = some tree → plist_dumps tree = none →
      jsonToPlistRun text = .noOutput) ∧
    (∀ tree out, jsonToPlistRead text = some tree → plist_dumps tree = some out →
      jsonToPlistRun text = .written out) := by
  refine ⟨?_, ?_, ?_, ?_, ?_, ?_⟩
  · intro h
    simp [plistToJsonRun, h]
  · intro tree h₁ h₂
    simp [plistToJsonRun, h₁, h₂]
  · intro tree out h₁ h₂
    simp [plistToJsonRun, h₁, h₂]
  · intro h
    simp [jsonToPlistRun, h]
  · intro tree h₁ h₂
    simp [jsonToPlistRun, h₁, h₂]
  · intro tree out h₁ h₂
    simp [jsonToPlistRun, h₁, h₂]

/-- Witness for C7: a failing read, a read that succeeds on a value the
JSON writer rejects, a full success, and the JSON→plist counterparts. -/
theorem convert_no_partial_output_witness :
    plistToJsonRun "not a plist" = .noOutput ∧
    plistToJsonRun "<plist version=\"1.0\"><data></data></plist>" = .noOutput ∧
    plistToJsonRun "<plist version=\"1.0\"><integer>7</integer></plist>" = .written "7" ∧
    jsonToPlistRun "\x7b" = .noOutput ∧
    jsonToPlistRun "null" = .noOutput ∧
    jsonToPlistRun "7" = .written
      "<?xml version=\"1.0\" encoding=\"UTF-8\"?>\n<!DOCTYPE plist PUBLIC \"-//Apple//DTD PLIST 1.0//EN\" \"http://www.apple.com/DTDs/PropertyList-1.0.dtd\">\n<plist version=\"1.0\">\n<integer>7</integer>\n</plist>\n" :=
  ⟨(convert_no_partial_output "not a plist").1 rfl,
    (convert_no_partial_output "<plist version=\"1.0\"><data></data></plist>").2.1
      (.data []) rfl rfl,
    (convert_no_partial_output "<plist version=\"1.0\"><integer>7</integer></plist>").2.2.1
      (.int 7) "7" rfl rfl,
    (convert_no_partial_output "\x7b").2.2.2.1 rfl,
    (convert_no_partial_output "null").2.2.2.2.1 .null rfl rfl,
    (convert_no_partial_output "7").2.2.2.2.2 (.int 7) _ rfl rfl⟩

/-- C9: a JSON input whose tree holds a null anywhere fails the JSON→plist
conversion — the plist writer raises on `None` rather than coercing it —
and the run produces no output. -/
theorem json_null_rejected (s : String) (v : TreeValue)
    (hv : jsonToPlistRead s = some v) (hnull : containsNullV v = true) :
    plist_dumps v = none ∧ jsonToPlistRun s = .noOutput := by
  have hw : plistWriteV 0 v = none := plistWriteV_none_of_null v 0 hnull
  have hdumps : plist_dumps v = none := by
    unfold plist_dumps
    rw [hw]
    rfl
  refine ⟨hdumps, ?_⟩
  simp [jsonToPlistRun, hv, hdumps]

/-- Witness for C9 on an object with a null member. -/
theorem json_null_rejected_witness :
    plist_dumps (.dict [("a", .null)]) = none ∧
    jsonToPlistRun "\x7b\"a\": null\x7d" = .noOutput :=
  json_null_rejected "\x7b\"a\": null\x7d" (.dict [("a", .null)]) rfl rfl

theorem p2jLookup_none : ∀ (tbl : List (String × String)) (fn : String),
    (∀ e ∈ tbl, matchExt e.1 fn = none) → p2jLookup tbl fn = none
  | [], _, _ => rfl
  | e :: tbl, fn, h => by
      have he := h e (List.mem_cons_self e tbl)
      rw [show p2jLookup (e :: tbl) fn =
          (match matchExt e.1 fn with
            | some stem => some (stem ++ "." ++ e.2)
            | none => p2jLookup tbl fn) from rfl, he]
      exact p2jLookup_none tbl fn fun x hx => h x (List.mem_cons_of_mem e hx)

theorem j2pLookup_none : ∀ (tbl : List (String × String)) (fn : String),
    (∀ e ∈ tbl, matchExt e.2 fn = none) → j2pLookup tbl fn = none
  | [], _, _ => rfl
  | e :: tbl, fn, h => by
      have he := h e (List.mem_cons_self e tbl)
      rw [show j2pLookup (e :: tbl) fn =
          (match matchExt e.2 fn with
            | some stem => some (stem ++ "." ++ e.1)
            | none => j2pLookup tbl fn) from rfl, he]
      exact j2pLookup_none tbl fn fun x hx => h x (List.mem_cons_of_mem e hx)

/-- C10: when no extension-table entry matches the filename, the output
name falls back to the splitext root plus the fixed default — upper-case
`".JSON"` for plist→JSON and lower-case `".plist"` for JSON→plist — and
table entries equal up to letter case match identically (the
`re.IGNORECASE` flag at both call sites). -/
theorem get_output_file_default (tbl : List (String × String)) (fn : String)
    (h₁ : ∀ e ∈ tbl, matchExt e.1 fn = none)
    (h₂ : ∀ e ∈ tbl, matchExt e.2 fn = none) :
    p2j_get_output_file tbl fn = splitextRoot fn ++ ".JSON" ∧
    j2p_get_output_file tbl fn = splitextRoot fn ++ ".plist" ∧
    (∀ e f g : String, e.data.map Char.toLower = f.data.map Char.toLower →
      matchExt e g = matchExt f g) := by
  refine ⟨?_, ?_, ?_⟩
  · unfold p2j_get_output_file
    rw [p2jLookup_none tbl fn h₁]
  · unfold j2p_get_output_file
    rw [j2pLookup_none tbl fn h₂]
  · intro e f g he
    have hlen : e.data.length = f.data.length := by
      have := congrArg List.length he
      simpa using this
    simp only [matchExt]
    rw [show ('.' :: e.data).length = ('.' :: f.data).length by simp [hlen],
      show ('.' :: e.data).map Char.toLower = ('.' :: f.data).map Char.toLower by
        simp [he]]

/-- Witness for C10: an unmatched filename for both directions, and one
case-insensitive matching pair. -/
theorem get_output_file_default_witness :
    p2j_get_output_file [("plist", "json")] "x.cfg" = splitextRoot "x.cfg" ++ ".JSON" ∧
    j2p_get_output_file [("plist", "json")] "x.cfg" = splitextRoot "x.cfg" ++ ".plist" ∧
    matchExt "plist" "A.PLIST" = matchExt "PLIST" "A.PLIST" := by
  have h := get_output_file_default [("plist", "json")] "x.cfg" (by decide) (by decide)
  exact ⟨h.1, h.2.1, h.2.2 "plist" "PLIST" "A.PLIST" (by decide)⟩

/-- C8: serialisation is deterministic.  Both converters are pure functions
of the tree value alone — key order, indentation and separators are fixed
by the calls in the two `convert` methods — so running either twice on
equal trees yields byte-identical output text. -/
theorem serialization_deterministic (v w : TreeValue) (h : v = w) :
    json_dumps v = json_dumps w ∧ plist_dumps v = plist_dumps w := by
  subst h
  exact ⟨rfl, rfl⟩

/-- Witness for C8 on a small dictionary. -/
theorem serialization_deterministic_witness :
    json_dumps (.dict [("a", .int 1)]) = json_dumps (.dict [("a", .int 1)]) ∧
    plist_dumps (.dict [("a", .int 1)]) = plist_dumps (.dict [("a", .int 1)]) :=
  serialization_deterministic (.dict [("a", .int 1)]) (.dict [("a", .int 1)]) rfl

/-- C4: sanitizing already-strict JSON is a no-op.  Any text the strict
parser `json_loads` accepts is returned unchanged by `sanitize_json`,
whether or not trailing-comma stripping is enabled: every character the
parser consumed sits in a stretch both sanitizer passes copy verbatim, and
no comma of a strict text is trailing. -/
theorem sanitize_strict_json_noop (s : String) (v : TreeValue) (strip : Bool)
    (h : json_loads s = some v) : sanitize_json s strip = Except.ok s := by
  obtain ⟨d⟩ := s
  unfold json_loads at h
  split at h
  · rename_i v₁ rest heq
    split at h
    · rename_i hws
      obtain ⟨p, c, hpe, hch, hf, hc1, hc2⟩ :=
        (parse_chunks (d.length + 1)).1 d v₁ rest heq
      have hws' : rest.dropWhile isJsonWs = [] := hws
      have hall : ∀ x ∈ rest, isJsonWs x = true :=
        List.dropWhile_eq_nil_iff.mp hws'
      have hrch : JChunk rest := jchunk_plain fun x hx => ws_plain (hall x hx)
      have hdch : JChunk d := by rw [hpe]; exact jchunk_append hch hrch
      obtain ⟨hsc, htc⟩ := hdch
      have hscd : scOutside d = Except.ok d := by
        have h2 := hsc []
        rw [List.append_nil] at h2
        rw [h2, show scOutside [] = Except.ok ([] : List Char) from rfl]
        simp [Except.map]
      have htcd : tcOutside d = d := by
        have h3 := htc []
        rw [List.append_nil,
          show tcOutside [] = ([] : List Char) from rfl, List.append_nil] at h3
        exact h3
      unfold sanitize_json
      rw [show (String.mk d).data = d from rfl, hscd]
      cases strip with
      | false => simp [Except.map]
      | true => simp [Except.map, htcd]
    · exact absurd h (by simp)
  · exact absurd h (by simp)

/-- Witness for C4 on a strict object with a nested array. -/
theorem sanitize_strict_json_noop_witness :
    json_loads "\x7b\"a\": [1, true]\x7d" =
      some (.dict [("a", .array [.int 1, .bool true])]) ∧
    sanitize_json "\x7b\"a\": [1, true]\x7d" true =
      Except.ok "\x7b\"a\": [1, true]\x7d" :=
  ⟨rfl, sanitize_strict_json_noop _ (.dict [("a", .array [.int 1, .bool true])]) true rfl⟩

/-! ### Decimal rendering and parsing invert each other -/

theorem hexDigitChar_hex : ∀ d, d < 16 →
    isHexDigitCh (hexDigitChar d) = true ∧ hexVal (hexDigitChar d) = d := by
  decide

theorem hexDigitChar_digit : ∀ d, d < 10 →
    isDigitCh (hexDigitChar d) = true ∧ digitVal (hexDigitChar d) = d ∧
      isJsonWs (hexDigitChar d) = false := by
  decide

theorem hexDigitChar_ne_zero : ∀ d, d < 10 → d ≠ 0 → hexDigitChar d ≠ '0' := by
  decide

theorem natToDecAux_eq : ∀ fuel n acc, n ≤ fuel →
    natToDecAux fuel n acc = ((Nat.digits 10 n).map hexDigitChar).reverse ++ acc := by
  intro fuel
  induction fuel with
  | zero =>
      intro n acc h
      interval_cases n
      simp [natToDecAux]
  | succ fuel ih =>
      intro n acc h
      by_cases hn : n = 0
      · subst hn
        simp [natToDecAux]
      · rw [show natToDecAux (fuel + 1) n acc =
          natToDecAux fuel (n / 10) (hexDigitChar (n % 10) :: acc) by
            simp [natToDecAux, hn]]
        rw [ih (n / 10) _ (by omega : n / 10 ≤ fuel)]
        rw [Nat.digits_def' (by norm_num : 1 < 10) (Nat.pos_of_ne_zero hn)]
        simp

theorem parseDigits_append (ds : List Char) : ∀ (rest : List Char) (acc : Nat),
    (∀ c ∈ ds, isDigitCh c = true) →
    parseDigits (ds ++ rest) acc =
      parseDigits rest (ds.foldl (fun a c => 10 * a + digitVal c) acc) := by
  induction ds with
  | nil => intro rest acc _; rfl
  | cons c ds ih =>
      intro rest acc h
      have hc : isDigitCh c = true := h c (List.mem_cons_self c ds)
      rw [List.cons_append]
      rw [show parseDigits (c :: (ds ++ rest)) acc =
        parseDigits (ds ++ rest) (10 * acc + digitVal c) by simp [parseDigits, hc]]
      rw [List.foldl_cons]
      exact ih rest _ (fun x hx => h x (List.mem_cons_of_mem c hx))

theorem parseDigits_stop (rest : List Char) (acc : Nat) (h : restSafe rest) :
    parseDigits rest acc = (acc, rest) := by
  cases rest with
  | nil => rfl
  | cons c cs =>
      have hc : isDigitCh c = false := h c rfl
      simp [parseDigits, hc]

theorem foldl_digits_val : ∀ (l : List Nat) (acc : Nat), (∀ d ∈ l, d < 10) →
    ((l.map hexDigitChar).reverse).foldl (fun a c => 10 * a + digitVal c) acc =
      acc * 10 ^ l.length + Nat.ofDigits 10 l := by
  intro l
  induction l with
  | nil => intro acc _; simp [Nat.ofDigits]
  | cons d l ih =>
      intro acc h
      have hd : d < 10 := h d (List.mem_cons_self d l)
      rw [List.map_cons, List.reverse_cons, List.foldl_append]
      rw [ih acc (fun x hx => h x (List.mem_cons_of_mem d hx))]
      simp only [List.foldl_cons, List.foldl_nil]
      rw [(hexDigitChar_digit d hd).2.1, Nat.ofDigits_cons, List.length_cons, pow_succ]
      ring

theorem natToDec_spec (n : Nat) :
    (∀ c ∈ natToDec n, isDigitCh c = true) ∧
    natToDec n ≠ [] ∧
    (natToDec n).foldl (fun a c => 10 * a + digitVal c) 0 = n := by
  by_cases hn : n = 0
  · subst hn
    refine ⟨?_, by simp [natToDec], by decide⟩
    intro c hc
    simp [natToDec] at hc
    subst hc
    decide
  · have heq : natToDec n = ((Nat.digits 10 n).map hexDigitChar).reverse := by
      rw [natToDec, if_neg hn, natToDecAux_eq n n [] le_rfl, List.append_nil]
    refine ⟨?_, ?_, ?_⟩
    · intro c hc
      rw [heq] at hc
      rw [List.mem_reverse, List.mem_map] at hc
      obtain ⟨d, hd, rfl⟩ := hc
      exact (hexDigitChar_digit d (Nat.digits_lt_base (by norm_num) hd)).1
    · rw [heq]
      simp [Nat.digits_ne_nil_iff_ne_zero.mpr hn]
    · rw [heq, foldl_digits_val _ 0
        (fun d hd => Nat.digits_lt_base (by norm_num) hd)]
      simp [Nat.ofDigits_digits]

theorem natToDec_head_ne_zero (n : Nat) (hn : n ≠ 0) :
    ∀ c cs, natToDec n = c :: cs → c ≠ '0' := by
  intro c cs hr
  have heq : natToDec n = ((Nat.digits 10 n).map hexDigitChar).reverse := by
    rw [natToDec, if_neg hn, natToDecAux_eq n n [] le_rfl, List.append_nil]
  have hdne : Nat.digits 10 n ≠ [] := Nat.digits_ne_nil_iff_ne_zero.mpr hn
  rcases List.eq_nil_or_concat (Nat.digits 10 n) with hnil | ⟨l, d, hld⟩
  · exact absurd hnil hdne
  · rw [heq, hld] at hr
    have hr2 : hexDigitChar d :: (l.map hexDigitChar).reverse = c :: cs := by
      rw [← hr]
      simp
    have hcd : c = hexDigitChar d := by
      injection hr2 with h1 _
      exact h1.symm
    have hdm : d ∈ Nat.digits 10 n := by
      rw [hld]
      simp
    have hd10 : d < 10 := Nat.digits_lt_base (by norm_num) hdm
    have hdz : d ≠ 0 := by
      have hlast := Nat.getLast_digit_ne_zero 10 hn
      have h1 : (Nat.digits 10 n).getLast? = some d := by
        rw [hld]
        simp
      have h2 : (Nat.digits 10 n).getLast? =
          some ((Nat.digits 10 n).getLast hdne) := List.getLast?_eq_getLast _ hdne
      rw [h1] at h2
      injection h2 with h3
      rw [← h3] at hlast
      exact hlast
    rw [hcd]
    exact hexDigitChar_ne_zero d hd10 hdz

theorem parseNatJson_cons_ne_zero {c : Char} (hc0 : c ≠ '0') (cs : List Char) :
    parseNatJson (c :: cs) =
      if isDigitCh c then some (parseDigits cs (digitVal c)) else none := by
  rw [parseNatJson.eq_def]
  split <;> simp_all

theorem parseNatJson_natToDec (n : Nat) (rest : List Char) (h : restSafe rest) :
    parseNatJson (natToDec n ++ rest) = some (n, rest) := by
  by_cases hn : n = 0
  · subst hn
    rfl
  · obtain ⟨hdig, hne, hval⟩ := natToDec_spec n
    cases hr : natToDec n with
    | nil => exact absurd hr hne
    | cons c cs =>
        have hc0 : c ≠ '0' := natToDec_head_ne_zero n hn c cs hr
        rw [hr] at hdig hval
        have hc : isDigitCh c = true := hdig c (List.mem_cons_self c cs)
        rw [List.cons_append, parseNatJson_cons_ne_zero hc0, if_pos hc]
        rw [parseDigits_append cs rest (digitVal c)
          (fun x hx => hdig x (List.mem_cons_of_mem c hx))]
        rw [parseDigits_stop rest _ h]
        rw [List.foldl_cons] at hval
        simp only [Nat.mul_zero, Nat.zero_add] at hval
        rw [hval]

/-! ### Whitespace and head characters as the parser reads them -/

theorem skipWs_cons_not_ws {c : Char} (h : isJsonWs c = false) (cs : List Char) :
    skipWs (c :: cs) = c :: cs := by
  simp [skipWs, List.dropWhile_cons, h]

theorem skipWs_ws_append {w : List Char} (h : ∀ c ∈ w, isJsonWs c = true) :
    ∀ cs, skipWs (w ++ cs) = skipWs cs := by
  induction w with
  | nil => intro cs; rfl
  | cons c w ih =>
      intro cs
      rw [List.cons_append]
      rw [show skipWs (c :: (w ++ cs)) = skipWs (w ++ cs) by
        simp [skipWs, List.dropWhile_cons, h c (List.mem_cons_self c w)]]
      exact ih (fun x hx => h x (List.mem_cons_of_mem c hx)) cs

theorem newlineIndent_ws (lvl : Nat) : ∀ c ∈ newlineIndent lvl, isJsonWs c = true := by
  intro c hc
  rcases List.mem_cons.mp hc with rfl | hc₂
  · rfl
  · rw [indentChars] at hc₂
    have := List.eq_of_mem_replicate hc₂
    subst this
    rfl

theorem skipWs_nlInd (lvl : Nat) (cs : List Char) :
    skipWs (newlineIndent lvl ++ cs) = skipWs cs :=
  skipWs_ws_append (newlineIndent_ws lvl) cs

theorem parseValue_congr {cs₁ cs₂ : List Char} (h : skipWs cs₁ = skipWs cs₂) :
    ∀ fuel, parseValue fuel cs₁ = parseValue fuel cs₂ := by
  intro fuel
  cases fuel with
  | zero => rfl
  | succ fuel => rw [parseValue_succ, parseValue_succ, h]

theorem parseItems_congr {cs₁ cs₂ : List Char} (h : skipWs cs₁ = skipWs cs₂) :
    ∀ fuel, parseItems fuel cs₁ = parseItems fuel cs₂ := by
  intro fuel
  cases fuel with
  | zero => rfl
  | succ fuel => rw [parseItems_succ, parseItems_succ, parseValue_congr h fuel]

theorem parseMembers_congr {cs₁ cs₂ : List Char} (h : skipWs cs₁ = skipWs cs₂) :
    ∀ fuel, parseMembers fuel cs₁ = parseMembers fuel cs₂ := by
  intro fuel
  cases fuel with
  | zero => rfl
  | succ fuel => rw [parseMembers_succ, parseMembers_succ, h]

theorem parseValue_null (fuel : Nat) (rest : List Char) :
    parseValue (fuel + 1) ("null".data ++ rest) = some (.null, rest) := rfl

theorem parseValue_true (fuel : Nat) (rest : List Char) :
    parseValue (fuel + 1) ("true".data ++ rest) = some (.bool true, rest) := rfl

theorem parseValue_false (fuel : Nat) (rest : List Char) :
    parseValue (fuel + 1) ("false".data ++ rest) = some (.bool false, rest) := rfl

theorem parseValue_quote (fuel : Nat) (cs : List Char) :
    parseValue (fuel + 1) ('"' :: cs) =
      (parseJString cs).map fun p => (.str ⟨p.1⟩, p.2) := rfl

theorem parseValue_minus (fuel : Nat) (cs : List Char) :
    parseValue (fuel + 1) ('-' :: cs) =
      (parseNatJson cs).map fun p => (.int (-(p.1 : Int)), p.2) := rfl

theorem parseValue_lbrack (fuel : Nat) (cs : List Char) :
    parseValue (fuel + 1) ('[' :: cs) =
      match skipWs cs with
      | ']' :: r => some (.array [], r)
      | r => (parseItems fuel r).map fun p => (.array p.1, p.2) := rfl

theorem parseValue_lbrace (fuel : Nat) (cs : List Char) :
    parseValue (fuel + 1) ('\x7b' :: cs) =
      match skipWs cs with
      | '\x7d' :: r => some (.dict [], r)
      | r => (parseMembers fuel r).map fun p => (.dict p.1, p.2) := rfl

theorem parseValue_digit (fuel : Nat) {c : Char} (h : isDigitCh c = true)
    (cs : List Char) :
    parseValue (fuel + 1) (c :: cs) =
      (parseNatJson (c :: cs)).map fun p => (.int (p.1 : Int), p.2) := by
  have hws : isJsonWs c = false := (isDigitCh_facts h).1
  rw [parseValue_succ, skipWs_cons_not_ws hws]
  split <;> simp_all [isDigitCh]

theorem joinSep_one (sep x : List Char) : joinSep sep [x] = x := rfl

theorem joinSep_two (sep x y : List Char) (xs : List (List Char)) :
    joinSep sep (x :: y :: xs) = x ++ sep ++ joinSep sep (y :: xs) := rfl

/-! ### The string escaper and the string parser invert each other -/

theorem parseJString_close (cs : List Char) :
    parseJString ('"' :: cs) = some ([], cs) := rfl

theorem parseJString_escQuote (cs : List Char) :
    parseJString ('\\' :: '"' :: cs) =
      (parseJString cs).map fun p => ('"' :: p.1, p.2) := rfl

theorem parseJString_escBack (cs : List Char) :
    parseJString ('\\' :: '\\' :: cs) =
      (parseJString cs).map fun p => ('\\' :: p.1, p.2) := rfl

theorem parseJString_escB (cs : List Char) :
    parseJString ('\\' :: 'b' :: cs) =
      (parseJString cs).map fun p => ('\x08' :: p.1, p.2) := rfl

theorem parseJString_escT (cs : List Char) :
    parseJString ('\\' :: 't' :: cs) =
      (parseJString cs).map fun p => ('\x09' :: p.1, p.2) := rfl

theorem parseJString_escN (cs : List Char) :
    parseJString ('\\' :: 'n' :: cs) =
      (parseJString cs).map fun p => ('\x0a' :: p.1, p.2) := rfl

theorem parseJString_escF (cs : List Char) :
    parseJString ('\\' :: 'f' :: cs) =
      (parseJString cs).map fun p => ('\x0c' :: p.1, p.2) := rfl

theorem parseJString_escR (cs : List Char) :
    parseJString ('\\' :: 'r' :: cs) =
      (parseJString cs).map fun p => ('\x0d' :: p.1, p.2) := rfl

theorem parseJString_escU (a b c d : Char) (cs : List Char) :
    parseJString ('\\' :: 'u' :: a :: b :: c :: d :: cs) =
      (if isHexDigitCh a && isHexDigitCh b && isHexDigitCh c && isHexDigitCh d then
        let n := ((hexVal a * 16 + hexVal b) * 16 + hexVal c) * 16 + hexVal d
        if n.isValidChar then
          (parseJString cs).map fun p => (Char.ofNat n :: p.1, p.2)
        else none
      else none) := rfl

theorem parseJString_plain {c : Char} (h₁ : c ≠ '"') (h₂ : c ≠ '\\')
    (cs : List Char) :
    parseJString (c :: cs) =
      if c.toNat < 0x20 then none
      else (parseJString cs).map fun p => (c :: p.1, p.2) := by
  rw [parseJString.eq_def]
  split <;> simp_all

theorem parseJString_escape : ∀ (cs rest : List Char),
    parseJString (cs.flatMap escapeJsonChar ++ '"' :: rest) = some (cs, rest) := by
  intro cs
  induction cs with
  | nil => intro rest; rfl
  | cons c cs ih =>
      intro rest
      rw [List.flatMap_cons, List.append_assoc]
      by_cases h₁ : c = '"'
      · subst h₁
        rw [show escapeJsonChar '"' = ['\\', '"'] from rfl]
        simp only [List.cons_append, List.nil_append]
        rw [parseJString_escQuote, ih]
        rfl
      by_cases h₂ : c = '\\'
      · subst h₂
        rw [show escapeJsonChar '\\' = ['\\', '\\'] from rfl]
        simp only [List.cons_append, List.nil_append]
        rw [parseJString_escBack, ih]
        rfl
      by_cases h₃ : c = '\x08'
      · subst h₃
        rw [show escapeJsonChar '\x08' = ['\\', 'b'] from rfl]
        simp only [List.cons_append, List.nil_append]
        rw [parseJString_escB, ih]
        rfl
      by_cases h₄ : c = '\x09'
      · subst h₄
        rw [show escapeJsonChar '\x09' = ['\\', 't'] from rfl]
        simp only [List.cons_append, List.nil_append]
        rw [parseJString_escT, ih]
        rfl
      by_cases h₅ : c = '\x0a'
      · subst h₅
        rw [show escapeJsonChar '\x0a' = ['\\', 'n'] from rfl]
        simp only [List.cons_append, List.nil_append]
        rw [parseJString_escN, ih]
        rfl
      by_cases h₆ : c = '\x0c'
      · subst h₆
        rw [show escapeJsonChar '\x0c' = ['\\', 'f'] from rfl]
        simp only [List.cons_append, List.nil_append]
        rw [parseJString_escF, ih]
        rfl
      by_cases h₇ : c = '\x0d'
      · subst h₇
        rw [show escapeJsonChar '\x0d' = ['\\', 'r'] from rfl]
        simp only [List.cons_append, List.nil_append]
        rw [parseJString_escR, ih]
        rfl
      by_cases h₈ : c.toNat < 0x20
      · rw [show escapeJsonChar c = ['\\', 'u', '0', '0',
            hexDigitChar (c.toNat / 16), hexDigitChar (c.toNat % 16)] by
          simp [escapeJsonChar, h₁, h₂, h₃, h₄, h₅, h₆, h₇, h₈]]
        simp only [List.cons_append, List.nil_append]
        rw [parseJString_escU]
        have hd₁ : c.toNat / 16 < 16 := by omega
        have hd₂ : c.toNat % 16 < 16 := by omega
        rw [if_pos (by
          rw [(hexDigitChar_hex _ hd₁).1, (hexDigitChar_hex _ hd₂).1]
          decide)]
        dsimp only
        rw [show hexVal '0' = 0 from rfl, (hexDigitChar_hex _ hd₁).2,
          (hexDigitChar_hex _ hd₂).2]
        have hn : ((0 * 16 + 0) * 16 + c.toNat / 16) * 16 + c.toNat % 16 = c.toNat := by
          omega
        rw [hn]
        rw [if_pos (Or.inl (by omega : c.toNat < 0xd800) : c.toNat.isValidChar)]
        rw [ih, Char.ofNat_toNat]
        rfl
      · rw [show escapeJsonChar c = [c] by
          simp [escapeJsonChar, h₁, h₂, h₃, h₄, h₅, h₆, h₇, h₈]]
        simp only [List.cons_append, List.nil_append]
        rw [parseJString_plain h₁ h₂, if_neg h₈, ih]
        rfl

/-- The full string literal round-trip: quote, escaped body, quote. -/
theorem parseJString_encode (s : String) (rest : List Char) :
    parseJString (s.data.flatMap escapeJsonChar ++ '"' :: rest) =
      some (s.data, rest) :=
  parseJString_escape s.data rest

/-! ### Sorted entries, key lookup, and Python dict equality -/

theorem sortByKey_cons {α : Type} (a : String × α) (l : List (String × α)) :
    sortByKey (a :: l) = (sortByKey l).orderedInsert keyRel a := rfl

theorem forall₂_orderedInsert {α β : Type} {R : (String × α) → (String × β) → Prop}
    (hkey : ∀ p q, R p q → q.1 = p.1) {a : String × α} {b : String × β}
    (hab : R a b) :
    ∀ {l₁ : List (String × α)} {l₂ : List (String × β)}, List.Forall₂ R l₁ l₂ →
      List.Forall₂ R (l₁.orderedInsert keyRel a) (l₂.orderedInsert keyRel b) := by
  intro l₁ l₂ h
  induction h with
  | nil => exact List.Forall₂.cons hab List.Forall₂.nil
  | cons hxy hl ih =>
      rename_i x y l₁ l₂
      have hk₁ : b.1 = a.1 := hkey a b hab
      have hk₂ : y.1 = x.1 := hkey x y hxy
      by_cases h : keyRel a x
      · rw [show (x :: l₁).orderedInsert keyRel a =
            if keyRel a x then a :: x :: l₁ else x :: l₁.orderedInsert keyRel a by
            simp [List.orderedInsert],
          show (y :: l₂).orderedInsert keyRel b =
            if keyRel b y then b :: y :: l₂ else y :: l₂.orderedInsert keyRel b by
            simp [List.orderedInsert],
          if_pos h, if_pos (show keyRel b y by
            unfold keyRel at h ⊢
            rw [hk₁, hk₂]
            exact h)]
        exact List.Forall₂.cons hab (List.Forall₂.cons hxy hl)
      · rw [show (x :: l₁).orderedInsert keyRel a =
            if keyRel a x then a :: x :: l₁ else x :: l₁.orderedInsert keyRel a by
            simp [List.orderedInsert],
          show (y :: l₂).orderedInsert keyRel b =
            if keyRel b y then b :: y :: l₂ else y :: l₂.orderedInsert keyRel b by
            simp [List.orderedInsert],
          if_neg h, if_neg (show ¬ keyRel b y by
            unfold keyRel at h ⊢
            rw [hk₁, hk₂]
            exact h)]
        exact List.Forall₂.cons hxy ih

theorem forall₂_sortByKey {α β : Type} {R : (String × α) → (String × β) → Prop}
    (hkey : ∀ p q, R p q → q.1 = p.1) :
    ∀ {l₁ : List (String × α)} {l₂ : List (String × β)}, List.Forall₂ R l₁ l₂ →
      List.Forall₂ R (sortByKey l₁) (sortByKey l₂) := by
  intro l₁ l₂ h
  induction h with
  | nil => exact List.Forall₂.nil
  | cons hab h ih =>
      rw [sortByKey_cons, sortByKey_cons]
      exact forall₂_orderedInsert hkey hab ih

theorem dumpsKV_forall₂ (lvl : Nat) : ∀ (es : List (String × TreeValue))
    (rs : List (String × List Char)), dumpsKV lvl es = some rs →
    List.Forall₂ (fun e q => q.1 = e.1 ∧ dumpsV lvl e.2 = some q.2) es rs := by
  intro es
  induction es with
  | nil =>
      intro rs h
      rw [show dumpsKV lvl [] = some [] from rfl] at h
      injection h with h
      subst h
      exact List.Forall₂.nil
  | cons e es ih =>
      intro rs h
      rw [dumpsKV_cons] at h
      cases hv : dumpsV lvl e.2 with
      | none => rw [hv] at h; exact absurd h (by simp)
      | some r =>
          rw [hv] at h
          cases hs : dumpsKV lvl es with
          | none => rw [hs] at h; exact absurd h (by simp)
          | some rs₂ =>
              rw [hs] at h
              simp only [Option.some_bind, Option.some.injEq] at h
              subst h
              exact List.Forall₂.cons ⟨rfl, hv⟩ (ih rs₂ hs)

theorem lookupKV_of_nodup : ∀ (l : List (String × TreeValue)) (k : String)
    (v : TreeValue), keysNodup (l.map Prod.fst) = true → (k, v) ∈ l →
    lookupKV k l = some v := by
  intro l
  induction l with
  | nil => intro k v _ hm; exact absurd hm (by simp)
  | cons e es ih =>
      intro k v hnd hm
      rw [List.map_cons,
        show keysNodup (e.1 :: es.map Prod.fst) =
          (!((es.map Prod.fst).contains e.1) && keysNodup (es.map Prod.fst)) from rfl,
        Bool.and_eq_true, Bool.not_eq_true'] at hnd
      rcases List.mem_cons.mp hm with he | hm₂
      · rw [← he]
        simp [lookupKV]
      · have hne : e.1 ≠ k := by
          intro hk
          have hmem : k ∈ es.map Prod.fst := by
            rw [List.mem_map]
            exact ⟨(k, v), hm₂, rfl⟩
          have hc : (es.map Prod.fst).contains k = true :=
            List.elem_eq_true_of_mem hmem
          rw [hk] at hnd
          rw [hnd.1] at hc
          exact absurd hc (by simp)
        rw [show lookupKV k (e :: es) =
          (if e.1 = k then some e.2 else lookupKV k es) from rfl, if_neg hne]
        exact ih k v hnd.2 hm₂

theorem pyEqEntries_of_lookup {es : List (String × TreeValue)} :
    ∀ {ps l₂ : List (String × TreeValue)},
    List.Forall₂ (fun p e => p.1 = e.1 ∧ pyEqV p.2 e.2 = true) ps l₂ →
    (∀ e ∈ l₂, lookupKV e.1 es = some e.2) →
    pyEqEntries ps es = true := by
  intro ps l₂ hf
  induction hf with
  | nil => intro _; rfl
  | cons hpe hf ih =>
      rename_i p e ps₂ l₃
      intro hl
      rw [show pyEqEntries (p :: ps₂) es =
        ((match lookupKV p.1 es with
          | some w => pyEqV p.2 w
          | none => false) && pyEqEntries ps₂ es) from rfl]
      rw [hpe.1, hl e (List.mem_cons_self e l₃)]
      simp only [Bool.and_eq_true]
      exact ⟨hpe.2, ih (fun x hx => hl x (List.mem_cons_of_mem e hx))⟩

theorem pyEqV_dict_of_sorted {ps es : List (String × TreeValue)}
    (hnd : keysNodup (es.map Prod.fst) = true)
    (hf : List.Forall₂ (fun p e => p.1 = e.1 ∧ pyEqV p.2 e.2 = true) ps
      (sortByKey es)) :
    pyEqV (.dict ps) (.dict es) = true := by
  rw [show pyEqV (.dict ps) (.dict es) =
    (decide (ps.length = es.length) && pyEqEntries ps es) from rfl]
  have hlen : ps.length = es.length := by
    rw [hf.length_eq]
    exact (List.perm_insertionSort keyRel es).length_eq
  rw [Bool.and_eq_true, decide_eq_true_eq]
  refine ⟨hlen, pyEqEntries_of_lookup hf ?_⟩
  intro e he
  have hm : e ∈ es := (List.perm_insertionSort keyRel es).mem_iff.mp he
  exact lookupKV_of_nodup es e.1 e.2 hnd hm

theorem nodupKeysL_mem : ∀ {vs : List TreeValue}, nodupKeysL vs = true →
    ∀ v ∈ vs, nodupKeysV v = true := by
  intro vs
  induction vs with
  | nil => intro _ v hv; exact absurd hv (by simp)
  | cons x xs ih =>
      intro h v hv
      rw [show nodupKeysL (x :: xs) = (nodupKeysV x && nodupKeysL xs) from rfl,
        Bool.and_eq_true] at h
      rcases List.mem_cons.mp hv with rfl | hv₂
      · exact h.1
      · exact ih h.2 v hv₂

theorem nodupKeysKV_mem : ∀ {es : List (String × TreeValue)},
    nodupKeysKV es = true → ∀ e ∈ es, nodupKeysV e.2 = true := by
  intro es
  induction es with
  | nil => intro _ e he; exact absurd he (by simp)
  | cons x xs ih =>
      intro h e he
      rw [show nodupKeysKV (x :: xs) = (nodupKeysV x.2 && nodupKeysKV xs) from rfl,
        Bool.and_eq_true] at h
      rcases List.mem_cons.mp he with rfl | he₂
      · exact h.1
      · exact ih h.2 e he₂

/-! ### Reading back a rendered container -/

theorem skipWs_cons_ws {c : Char} (h : isJsonWs c = true) (cs : List Char) :
    skipWs (c :: cs) = skipWs cs := by
  simp [skipWs, List.dropWhile_cons, h]

theorem restSafe_nlInd (lvl : Nat) (cs : List Char) :
    restSafe (newlineIndent lvl ++ cs) := by
  intro c hc
  rw [show newlineIndent lvl ++ cs = '\n' :: (indentChars lvl ++ cs) from rfl,
    List.head?_cons] at hc
  injection hc with hc
  subst hc
  rfl

theorem restSafe_comma (cs : List Char) : restSafe (',' :: cs) := by
  intro c hc
  rw [List.head?_cons] at hc
  injection hc with hc
  subst hc
  rfl

theorem restSafe_nil : restSafe [] := by
  intro c hc
  exact absurd hc (by simp)

theorem itemsParse : ∀ (vs : List TreeValue) (lvl : Nat)
    (rs : List (List Char)),
    (∀ v ∈ vs, RoundP v) →
    (∀ v ∈ vs, nodupKeysV v = true) →
    dumpsL (lvl + 1) vs = some rs →
    vs ≠ [] →
    ∀ fuel, (joinSep (',' :: newlineIndent (lvl + 1)) rs).length + 4 < fuel →
    ∀ rest : List Char,
      ∃ ws, parseItems fuel
          (joinSep (',' :: newlineIndent (lvl + 1)) rs ++
            (newlineIndent lvl ++ ']' :: rest)) = some (ws, rest) ∧
        pyEqL ws vs = true := by
  intro vs
  induction vs with
  | nil => intro lvl rs _ _ _ hne; exact absurd rfl hne
  | cons v vs ih =>
      intro lvl rs hR hwf hdump _ fuel hfuel rest
      rw [show dumpsL (lvl + 1) (v :: vs) = (dumpsV (lvl + 1) v).bind fun r =>
        (dumpsL (lvl + 1) vs).bind fun rs₂ => some (r :: rs₂) from rfl] at hdump
      cases hv : dumpsV (lvl + 1) v with
      | none => rw [hv] at hdump; exact absurd hdump (by simp)
      | some r =>
          rw [hv] at hdump
          cases hs : dumpsL (lvl + 1) vs with
          | none => rw [hs] at hdump; exact absurd hdump (by simp)
          | some rs₂ =>
              rw [hs] at hdump
              simp only [Option.some_bind, Option.some.injEq] at hdump
              subst hdump
              obtain ⟨f, rfl⟩ : ∃ f, fuel = f + 1 := ⟨fuel - 1, by omega⟩
              cases vs with
              | nil =>
                  have hrs : rs₂ = [] := by
                    rw [show dumpsL (lvl + 1) ([] : List TreeValue) = some []
                      from rfl] at hs
                    injection hs with h
                    exact h.symm
                  subst hrs
                  rw [joinSep_one] at hfuel ⊢
                  obtain ⟨w, hw, hpy⟩ := hR v (by simp) (hwf v (by simp)) (lvl + 1) r
                    hv f (by omega) (newlineIndent lvl ++ ']' :: rest)
                    (restSafe_nlInd lvl _)
                  refine ⟨[w], ?_, ?_⟩
                  · rw [parseItems_succ, hw]
                    simp only [Option.some_bind]
                    rw [skipWs_nlInd, skipWs_cons_not_ws (by decide)]
                    rfl
                  · simp only [pyEqL, Bool.and_eq_true]
                    exact ⟨hpy, trivial⟩
              | cons v₂ vs₂ =>
                  have hrs : rs₂ ≠ [] := by
                    intro hnil
                    subst hnil
                    rw [show dumpsL (lvl + 1) (v₂ :: vs₂) =
                      (dumpsV (lvl + 1) v₂).bind fun r =>
                        (dumpsL (lvl + 1) vs₂).bind fun rs₃ => some (r :: rs₃)
                      from rfl] at hs
                    cases h₁ : dumpsV (lvl + 1) v₂ with
                    | none => rw [h₁] at hs; exact absurd hs (by simp)
                    | some a =>
                        rw [h₁] at hs
                        cases h₂ : dumpsL (lvl + 1) vs₂ with
                        | none => rw [h₂] at hs; exact absurd hs (by simp)
                        | some b =>
                            rw [h₂] at hs
                            simp at hs
                  cases rs₂ with
                  | nil => exact absurd rfl hrs
                  | cons r₂ rs₃ =>
                      have hlnl : (newlineIndent (lvl + 1)).length =
                          1 + 4 * (lvl + 1) := by
                        rw [newlineIndent, List.length_cons, indentChars,
                          List.length_replicate]
                        omega
                      have hljoin : (joinSep (',' :: newlineIndent (lvl + 1))
                          (r :: r₂ :: rs₃)).length =
                          r.length + (1 + (newlineIndent (lvl + 1)).length) +
                            (joinSep (',' :: newlineIndent (lvl + 1))
                              (r₂ :: rs₃)).length := by
                        rw [joinSep_two]
                        simp only [List.length_append, List.length_cons]
                        omega
                      have htext : joinSep (',' :: newlineIndent (lvl + 1))
                            (r :: r₂ :: rs₃) ++
                            (newlineIndent lvl ++ ']' :: rest) =
                          r ++ (',' :: (newlineIndent (lvl + 1) ++
                            (joinSep (',' :: newlineIndent (lvl + 1)) (r₂ :: rs₃) ++
                              (newlineIndent lvl ++ ']' :: rest)))) := by
                        rw [joinSep_two]
                        simp [List.append_assoc]
                      obtain ⟨w, hw, hpy⟩ := hR v (by simp) (hwf v (by simp)) (lvl + 1)
                        r hv f (by omega)
                        (',' :: (newlineIndent (lvl + 1) ++
                          (joinSep (',' :: newlineIndent (lvl + 1)) (r₂ :: rs₃) ++
                            (newlineIndent lvl ++ ']' :: rest))))
                        (restSafe_comma _)
                      obtain ⟨ws, hws, hpys⟩ := ih lvl (r₂ :: rs₃)
                        (fun x hx => hR x (List.mem_cons_of_mem v hx))
                        (fun x hx => hwf x (List.mem_cons_of_mem v hx))
                        hs (by simp) f (by omega) rest
                      refine ⟨w :: ws, ?_, ?_⟩
                      · rw [parseItems_succ, htext, hw]
                        simp only [Option.some_bind]
                        rw [skipWs_cons_not_ws (by decide)]
                        show Option.map (fun p => (w :: p.1, p.2))
                          (parseItems f (newlineIndent (lvl + 1) ++
                            (joinSep (',' :: newlineIndent (lvl + 1)) (r₂ :: rs₃) ++
                              (newlineIndent lvl ++ ']' :: rest)))) = _
                        rw [parseItems_congr (skipWs_nlInd (lvl + 1) _) f, hws]
                        rfl
                      · simp only [pyEqL, Bool.and_eq_true]
                        exact ⟨hpy, hpys⟩

theorem parseMembers_quote (fuel : Nat) (cs : List Char) :
    parseMembers (fuel + 1) ('"' :: cs) =
      (parseJString cs).bind fun kp =>
        match skipWs kp.2 with
        | ':' :: r₂ =>
            (parseValue fuel r₂).bind fun vp =>
              match skipWs vp.2 with
              | ',' :: r₄ => (parseMembers fuel r₄).map fun p =>
                  ((⟨kp.1⟩, vp.1) :: p.1, p.2)
              | '\x7d' :: r₄ => some ([(⟨kp.1⟩, vp.1)], r₄)
              | _ => none
        | _ => none := rfl

theorem membersParse : ∀ (ents : List (String × TreeValue)) (lvl : Nat)
    (qs : List (String × List Char)),
    (∀ e ∈ ents, RoundP e.2) →
    (∀ e ∈ ents, nodupKeysV e.2 = true) →
    List.Forall₂ (fun e q => q.1 = e.1 ∧ dumpsV (lvl + 1) e.2 = some q.2) ents qs →
    ents ≠ [] →
    ∀ fuel,
      (joinSep (',' :: newlineIndent (lvl + 1)) (qs.map memberLine)).length + 4 <
        fuel →
    ∀ rest : List Char,
      ∃ ps, parseMembers fuel
          (joinSep (',' :: newlineIndent (lvl + 1)) (qs.map memberLine) ++
            (newlineIndent lvl ++ '\x7d' :: rest)) = some (ps, rest) ∧
        List.Forall₂ (fun p e => p.1 = e.1 ∧ pyEqV p.2 e.2 = true) ps ents := by
  intro ents
  induction ents with
  | nil => intro lvl qs _ _ _ hne; exact absurd rfl hne
  | cons e ents₂ ih =>
      intro lvl qs hR hwf hf _ fuel hfuel rest
      cases hf with
      | cons hq hf₂ =>
          rename_i q qs₂
          obtain ⟨f, rfl⟩ : ∃ f, fuel = f + 1 := ⟨fuel - 1, by omega⟩
          have hml : q.2.length + 4 ≤ (memberLine q).length := by
            simp [memberLine, encodeJsonString]
          cases hf₂ with
          | nil =>
              rw [List.map_cons, List.map_nil, joinSep_one] at hfuel ⊢
              have htext : memberLine q ++ (newlineIndent lvl ++ '\x7d' :: rest) =
                  '"' :: (q.1.data.flatMap escapeJsonChar ++
                    ('"' :: (':' :: ' ' :: (q.2 ++
                      (newlineIndent lvl ++ '\x7d' :: rest))))) := by
                simp [memberLine, encodeJsonString, List.append_assoc]
              obtain ⟨w, hw, hpy⟩ := hR e (by simp) (hwf e (by simp)) (lvl + 1) q.2
                hq.2 f (by omega) (newlineIndent lvl ++ '\x7d' :: rest)
                (restSafe_nlInd lvl _)
              refine ⟨[(q.1, w)], ?_, ?_⟩
              · rw [htext, parseMembers_quote, parseJString_escape]
                simp only [Option.some_bind]
                rw [skipWs_cons_not_ws (by decide)]
                show ((parseValue f (' ' :: (q.2 ++
                    (newlineIndent lvl ++ '\x7d' :: rest)))).bind fun vp =>
                  match skipWs vp.2 with
                  | ',' :: r₄ => (parseMembers f r₄).map fun p =>
                      ((⟨q.1.data⟩, vp.1) :: p.1, p.2)
                  | '\x7d' :: r₄ => some ([(⟨q.1.data⟩, vp.1)], r₄)
                  | _ => none) = _
                rw [show parseValue f (' ' :: (q.2 ++
                    (newlineIndent lvl ++ '\x7d' :: rest))) =
                  parseValue f (q.2 ++ (newlineIndent lvl ++ '\x7d' :: rest)) from
                  parseValue_congr (skipWs_cons_ws (by decide) _) f]
                rw [hw]
                simp only [Option.some_bind]
                rw [skipWs_nlInd, skipWs_cons_not_ws (by decide)]
                rfl
              · exact List.Forall₂.cons ⟨hq.1, hpy⟩ List.Forall₂.nil
          | cons hq₂ hf₃ =>
              rename_i e₂ q₂ ents₃ qs₃ hne₂
              rw [List.map_cons, List.map_cons] at hfuel ⊢
              have hlnl : (newlineIndent (lvl + 1)).length =
                  1 + 4 * (lvl + 1) := by
                rw [newlineIndent, List.length_cons, indentChars,
                  List.length_replicate]
                omega
              have hljoin : (joinSep (',' :: newlineIndent (lvl + 1))
                  (memberLine q :: memberLine q₂ :: qs₃.map memberLine)).length =
                  (memberLine q).length + (1 + (newlineIndent (lvl + 1)).length) +
                    (joinSep (',' :: newlineIndent (lvl + 1))
                      (memberLine q₂ :: qs₃.map memberLine)).length := by
                rw [joinSep_two]
                simp only [List.length_append, List.length_cons]
                omega
              have htext : joinSep (',' :: newlineIndent (lvl + 1))
                    (memberLine q :: memberLine q₂ :: qs₃.map memberLine) ++
                    (newlineIndent lvl ++ '\x7d' :: rest) =
                  '"' :: (q.1.data.flatMap escapeJsonChar ++
                    ('"' :: (':' :: ' ' :: (q.2 ++
                      (',' :: (newlineIndent (lvl + 1) ++
                        (joinSep (',' :: newlineIndent (lvl + 1))
                          (memberLine q₂ :: qs₃.map memberLine) ++
                          (newlineIndent lvl ++ '\x7d' :: rest)))))))) := by
                rw [joinSep_two]
                simp [memberLine, encodeJsonString, List.append_assoc]
              obtain ⟨w, hw, hpy⟩ := hR e (by simp) (hwf e (by simp)) (lvl + 1) q.2
                hq.2 f (by omega)
                (',' :: (newlineIndent (lvl + 1) ++
                  (joinSep (',' :: newlineIndent (lvl + 1))
                    (memberLine q₂ :: qs₃.map memberLine) ++
                    (newlineIndent lvl ++ '\x7d' :: rest))))
                (restSafe_comma _)
              obtain ⟨ps₂, hps₂, hpys⟩ := ih lvl (q₂ :: qs₃)
                (fun x hx => hR x (List.mem_cons_of_mem e hx))
                (fun x hx => hwf x (List.mem_cons_of_mem e hx))
                (List.Forall₂.cons hq₂ hf₃) (by simp) f
                (by rw [List.map_cons]; omega) rest
              rw [List.map_cons] at hps₂
              refine ⟨(q.1, w) :: ps₂, ?_, ?_⟩
              · rw [htext, parseMembers_quote, parseJString_escape]
                simp only [Option.some_bind]
                rw [skipWs_cons_not_ws (by decide)]
                show ((parseValue f (' ' :: (q.2 ++
                    (',' :: (newlineIndent (lvl + 1) ++
                      (joinSep (',' :: newlineIndent (lvl + 1))
                        (memberLine q₂ :: qs₃.map memberLine) ++
                        (newlineIndent lvl ++ '\x7d' :: rest))))))).bind fun vp =>
                  match skipWs vp.2 with
                  | ',' :: r₄ => (parseMembers f r₄).map fun p =>
                      ((⟨q.1.data⟩, vp.1) :: p.1, p.2)
                  | '\x7d' :: r₄ => some ([(⟨q.1.data⟩, vp.1)], r₄)
                  | _ => none) = _
                rw [show parseValue f (' ' :: (q.2 ++
                    (',' :: (newlineIndent (lvl + 1) ++
                      (joinSep (',' :: newlineIndent (lvl + 1))
                        (memberLine q₂ :: qs₃.map memberLine) ++
                        (newlineIndent lvl ++ '\x7d' :: rest)))))) =
                  parseValue f (q.2 ++
                    (',' :: (newlineIndent (lvl + 1) ++
                      (joinSep (',' :: newlineIndent (lvl + 1))
                        (memberLine q₂ :: qs₃.map memberLine) ++
                        (newlineIndent lvl ++ '\x7d' :: rest))))) from
                  parseValue_congr (skipWs_cons_ws (by decide) _) f]
                rw [hw]
                simp only [Option.some_bind]
                rw [skipWs_cons_not_ws (by decide)]
                show Option.map (fun p => ((⟨q.1.data⟩, w) :: p.1, p.2))
                  (parseMembers f (newlineIndent (lvl + 1) ++
                    (joinSep (',' :: newlineIndent (lvl + 1))
                      (memberLine q₂ :: qs₃.map memberLine) ++
                      (newlineIndent lvl ++ '\x7d' :: rest)))) = _
                rw [parseMembers_congr (skipWs_nlInd (lvl + 1) _) f, hps₂]
                rfl
              · exact List.Forall₂.cons ⟨hq.1, hpy⟩ hpys

theorem joinSep_cons_append (sep r : List Char) (rs : List (List Char))
    (tail : List Char) :
    ∃ X, joinSep sep (r :: rs) ++ tail = r ++ X := by
  cases rs with
  | nil => exact ⟨tail, by rw [joinSep_one]⟩
  | cons y ys =>
      refine ⟨sep ++ (joinSep sep (y :: ys) ++ tail), ?_⟩
      rw [joinSep_two]
      simp [List.append_assoc]

theorem dumpsV_head : ∀ (v : TreeValue) (lvl : Nat) (out : List Char),
    dumpsV lvl v = some out →
    ∃ c cs, out = c :: cs ∧ isJsonWs c = false ∧ c ≠ ']' ∧ c ≠ '\x7d'
  | .null, lvl, out, h => by
      rw [show dumpsV lvl .null = some ("null".data) from rfl] at h
      injection h with h
      exact ⟨'n', ['u', 'l', 'l'], by rw [← h], by decide, by decide, by decide⟩
  | .bool true, lvl, out, h => by
      rw [show dumpsV lvl (.bool true) = some ("true".data) from rfl] at h
      injection h with h
      exact ⟨'t', ['r', 'u', 'e'], by rw [← h], by decide, by decide, by decide⟩
  | .bool false, lvl, out, h => by
      rw [show dumpsV lvl (.bool false) = some ("false".data) from rfl] at h
      injection h with h
      exact ⟨'f', ['a', 'l', 's', 'e'], by rw [← h], by decide, by decide,
        by decide⟩
  | .int n, lvl, out, h => by
      rw [show dumpsV lvl (.int n) = some (intToDec n) from rfl] at h
      injection h with h
      by_cases hneg : n < 0
      · refine ⟨'-', natToDec (-n).toNat, ?_, by decide, by decide, by decide⟩
        rw [← h, intToDec, if_pos hneg]
      · obtain ⟨hdig, hne, _⟩ := natToDec_spec n.toNat
        cases hnd : natToDec n.toNat with
        | nil => exact absurd hnd hne
        | cons c cs =>
            have hc : isDigitCh c = true := by
              rw [hnd] at hdig
              exact hdig c (List.mem_cons_self c cs)
            have hf := isDigitCh_facts hc
            refine ⟨c, cs, ?_, hf.1, hf.2.1, hf.2.2.1⟩
            rw [← h, intToDec, if_neg hneg, hnd]
  | .str s, lvl, out, h => by
      rw [show dumpsV lvl (.str s) = some (encodeJsonString s) from rfl] at h
      injection h with h
      exact ⟨'"', s.data.flatMap escapeJsonChar ++ ['"'], by rw [← h]; rfl,
        by decide, by decide, by decide⟩
  | .data _, lvl, out, h =>
      absurd (show (none : Option (List Char)) = some out from h) (by simp)
  | .date _, lvl, out, h =>
      absurd (show (none : Option (List Char)) = some out from h) (by simp)
  | .array [], lvl, out, h => by
      rw [show dumpsV lvl (.array []) = some ("[]".data) from rfl] at h
      injection h with h
      exact ⟨'[', [']'], by rw [← h], by decide, by decide, by decide⟩
  | .array (v :: vs), lvl, out, h => by
      rw [show dumpsV lvl (.array (v :: vs)) =
        (dumpsL (lvl + 1) (v :: vs)).bind fun rs => some (arrayBody lvl rs)
        from rfl] at h
      cases hL : dumpsL (lvl + 1) (v :: vs) with
      | none => rw [hL] at h; exact absurd h (by simp)
      | some rs =>
          rw [hL] at h
          simp only [Option.some_bind, Option.some.injEq] at h
          refine ⟨'[', newlineIndent (lvl + 1) ++
            joinSep (',' :: newlineIndent (lvl + 1)) rs ++
            newlineIndent lvl ++ [']'], ?_, by decide, by decide, by decide⟩
          rw [← h]
          rfl
  | .dict [], lvl, out, h => by
      rw [show dumpsV lvl (.dict []) = some ("\x7b\x7d".data) from rfl] at h
      injection h with h
      exact ⟨'\x7b', ['\x7d'], by rw [← h], by decide, by decide, by decide⟩
  | .dict (e :: es), lvl, out, h => by
      rw [show dumpsV lvl (.dict (e :: es)) =
        (dumpsKV (lvl + 1) (e :: es)).bind fun rs => some (dictBody lvl rs)
        from rfl] at h
      cases hKV : dumpsKV (lvl + 1) (e :: es) with
      | none => rw [hKV] at h; exact absurd h (by simp)
      | some rs =>
          rw [hKV] at h
          simp only [Option.some_bind, Option.some.injEq] at h
          refine ⟨'\x7b', newlineIndent (lvl + 1) ++
            joinSep (',' :: newlineIndent (lvl + 1)) ((sortByKey rs).map memberLine) ++
            newlineIndent lvl ++ ['\x7d'], ?_, by decide, by decide, by decide⟩
          rw [← h]
          rfl

theorem parseValue_lbrack_items (f : Nat) {cs cs₂ : List Char}
    (hws : skipWs cs = cs₂) (hhd : ∀ r, cs₂ ≠ ']' :: r) :
    parseValue (f + 1) ('[' :: cs) =
      (parseItems f cs₂).map fun p => (.array p.1, p.2) := by
  rw [parseValue_lbrack, hws]
  split
  · rename_i r
    exact absurd rfl (hhd r)
  · rfl

theorem parseValue_lbrace_members (f : Nat) {cs cs₂ : List Char}
    (hws : skipWs cs = cs₂) (hhd : ∀ r, cs₂ ≠ '\x7d' :: r) :
    parseValue (f + 1) ('\x7b' :: cs) =
      (parseMembers f cs₂).map fun p => (.dict p.1, p.2) := by
  rw [parseValue_lbrace, hws]
  split
  · rename_i r
    exact absurd rfl (hhd r)
  · rfl

theorem parseValue_natToDec (f m : Nat) (rest : List Char)
    (hrest : restSafe rest) :
    parseValue (f + 1) (natToDec m ++ rest) = some (.int (m : Int), rest) := by
  obtain ⟨hdig, hne, _⟩ := natToDec_spec m
  cases hnd : natToDec m with
  | nil => exact absurd hnd hne
  | cons c cs =>
      have hc : isDigitCh c = true := by
        rw [hnd] at hdig
        exact hdig c (List.mem_cons_self c cs)
      have h₁ : parseValue (f + 1) ((c :: cs) ++ rest) =
          (parseNatJson ((c :: cs) ++ rest)).map
            fun p => (.int (p.1 : Int), p.2) := by
        rw [List.cons_append]
        exact parseValue_digit f hc (cs ++ rest)
      rw [h₁, ← hnd, parseNatJson_natToDec m rest hrest]
      rfl

mutual

/-- Every tree value has the JSON round-trip property: by mutual induction
over the nested tree, what `dumpsV` renders `parseValue` reads back. -/
theorem dumps_roundV : ∀ v : TreeValue, RoundP v
  | .null => by
      intro _ lvl out hdump fuel hfuel rest hrest
      rw [show dumpsV lvl .null = some ("null".data) from rfl] at hdump
      injection hdump with hdump
      subst hdump
      obtain ⟨f, rfl⟩ : ∃ f, fuel = f + 1 := ⟨fuel - 1, by omega⟩
      exact ⟨.null, parseValue_null f rest, rfl⟩
  | .bool true => by
      intro _ lvl out hdump fuel hfuel rest hrest
      rw [show dumpsV lvl (.bool true) = some ("true".data) from rfl] at hdump
      injection hdump with hdump
      subst hdump
      obtain ⟨f, rfl⟩ : ∃ f, fuel = f + 1 := ⟨fuel - 1, by omega⟩
      exact ⟨.bool true, parseValue_true f rest, rfl⟩
  | .bool false => by
      intro _ lvl out hdump fuel hfuel rest hrest
      rw [show dumpsV lvl (.bool false) = some ("false".data) from rfl] at hdump
      injection hdump with hdump
      subst hdump
      obtain ⟨f, rfl⟩ : ∃ f, fuel = f + 1 := ⟨fuel - 1, by omega⟩
      exact ⟨.bool false, parseValue_false f rest, rfl⟩
  | .int n => by
      intro _ lvl out hdump fuel hfuel rest hrest
      rw [show dumpsV lvl (.int n) = some (intToDec n) from rfl] at hdump
      injection hdump with hdump
      subst hdump
      obtain ⟨f, rfl⟩ : ∃ f, fuel = f + 1 := ⟨fuel - 1, by omega⟩
      refine ⟨.int n, ?_, by
        rw [show pyEqV (.int n) (.int n) = decide (n = n) from rfl]
        simp⟩
      by_cases hneg : n < 0
      · rw [show intToDec n = '-' :: natToDec (-n).toNat from by
          rw [intToDec, if_pos hneg]]
        rw [List.cons_append, parseValue_minus, parseNatJson_natToDec _ rest hrest]
        show some (TreeValue.int (-(((-n).toNat : Nat) : Int)), rest) =
          some (.int n, rest)
        have hn : -(((-n).toNat : Nat) : Int) = n := by omega
        rw [hn]
      · rw [show intToDec n = natToDec n.toNat from by rw [intToDec, if_neg hneg]]
        rw [parseValue_natToDec f n.toNat rest hrest]
        have hn : ((n.toNat : Nat) : Int) = n := by omega
        rw [hn]
  | .str s => by
      intro _ lvl out hdump fuel hfuel rest hrest
      rw [show dumpsV lvl (.str s) = some (encodeJsonString s) from rfl] at hdump
      injection hdump with hdump
      subst hdump
      obtain ⟨f, rfl⟩ : ∃ f, fuel = f + 1 := ⟨fuel - 1, by omega⟩
      refine ⟨.str s, ?_, by
        rw [show pyEqV (.str s) (.str s) = decide (s = s) from rfl]
        simp⟩
      rw [show encodeJsonString s ++ rest =
        '"' :: (s.data.flatMap escapeJsonChar ++ '"' :: rest) by
        simp [encodeJsonString, List.append_assoc]]
      rw [parseValue_quote, parseJString_escape]
      rfl
  | .data _ => by
      intro _ lvl out hdump
      exact absurd (show (none : Option (List Char)) = some out from hdump)
        (by simp)
  | .date _ => by
      intro _ lvl out hdump
      exact absurd (show (none : Option (List Char)) = some out from hdump)
        (by simp)
  | .array [] => by
      intro _ lvl out hdump fuel hfuel rest hrest
      rw [show dumpsV lvl (.array []) = some ("[]".data) from rfl] at hdump
      injection hdump with hdump
      subst hdump
      obtain ⟨f, rfl⟩ : ∃ f, fuel = f + 1 := ⟨fuel - 1, by omega⟩
      refine ⟨.array [], ?_, rfl⟩
      rw [show ("[]".data ++ rest : List Char) = '[' :: (']' :: rest) from rfl]
      rw [parseValue_lbrack, skipWs_cons_not_ws (by decide)]
      rfl
  | .array (v :: vs) => by
      intro hwf lvl out hdump fuel hfuel rest hrest
      rw [show dumpsV lvl (.array (v :: vs)) =
        (dumpsL (lvl + 1) (v :: vs)).bind fun rs => some (arrayBody lvl rs)
        from rfl] at hdump
      cases hL : dumpsL (lvl + 1) (v :: vs) with
      | none => rw [hL] at hdump; exact absurd hdump (by simp)
      | some rs =>
          rw [hL] at hdump
          simp only [Option.some_bind, Option.some.injEq] at hdump
          subst hdump
          obtain ⟨f, rfl⟩ : ∃ f, fuel = f + 1 := ⟨fuel - 1, by omega⟩
          have hv : ∃ r rs₂, dumpsV (lvl + 1) v = some r ∧ rs = r :: rs₂ := by
            rw [show dumpsL (lvl + 1) (v :: vs) = (dumpsV (lvl + 1) v).bind fun r =>
              (dumpsL (lvl + 1) vs).bind fun rs₂ => some (r :: rs₂) from rfl] at hL
            cases h₁ : dumpsV (lvl + 1) v with
            | none => rw [h₁] at hL; exact absurd hL (by simp)
            | some r =>
                rw [h₁] at hL
                cases h₂ : dumpsL (lvl + 1) vs with
                | none => rw [h₂] at hL; exact absurd hL (by simp)
                | some rs₃ =>
                    rw [h₂] at hL
                    simp only [Option.some_bind, Option.some.injEq] at hL
                    exact ⟨r, rs₃, rfl, hL.symm⟩
          obtain ⟨r, rs₂, hvd, hrs⟩ := hv
          subst hrs
          obtain ⟨c, cr, hhd, hcws, hc₁, hc₂⟩ := dumpsV_head v (lvl + 1) r hvd
          obtain ⟨X, hX⟩ := joinSep_cons_append (',' :: newlineIndent (lvl + 1))
            r rs₂ (newlineIndent lvl ++ ']' :: rest)
          have hX₂ : joinSep (',' :: newlineIndent (lvl + 1)) (r :: rs₂) ++
              (newlineIndent lvl ++ ']' :: rest) = c :: (cr ++ X) := by
            rw [hX, hhd, List.cons_append]
          have htext : arrayBody lvl (r :: rs₂) ++ rest =
              '[' :: (newlineIndent (lvl + 1) ++
                (joinSep (',' :: newlineIndent (lvl + 1)) (r :: rs₂) ++
                  (newlineIndent lvl ++ ']' :: rest))) := by
            simp [arrayBody, List.append_assoc]
          have hws : skipWs (newlineIndent (lvl + 1) ++
              (joinSep (',' :: newlineIndent (lvl + 1)) (r :: rs₂) ++
                (newlineIndent lvl ++ ']' :: rest))) =
              joinSep (',' :: newlineIndent (lvl + 1)) (r :: rs₂) ++
                (newlineIndent lvl ++ ']' :: rest) := by
            rw [skipWs_nlInd, hX₂, skipWs_cons_not_ws hcws, ← hX₂]
          have hhd₂ : ∀ rr, joinSep (',' :: newlineIndent (lvl + 1)) (r :: rs₂) ++
              (newlineIndent lvl ++ ']' :: rest) ≠ ']' :: rr := by
            intro rr hcontra
            rw [hX₂] at hcontra
            injection hcontra with h₃ _
            exact hc₁ h₃
          have hlnl₁ : (newlineIndent (lvl + 1)).length = 1 + 4 * (lvl + 1) := by
            rw [newlineIndent, List.length_cons, indentChars, List.length_replicate]
            omega
          have hlnl₀ : (newlineIndent lvl).length = 1 + 4 * lvl := by
            rw [newlineIndent, List.length_cons, indentChars, List.length_replicate]
            omega
          have hlarr : (arrayBody lvl (r :: rs₂)).length =
              2 + (newlineIndent (lvl + 1)).length +
                (joinSep (',' :: newlineIndent (lvl + 1)) (r :: rs₂)).length +
                (newlineIndent lvl).length := by
            simp [arrayBody, List.length_append]
            omega
          have hwfL : nodupKeysL (v :: vs) = true := hwf
          obtain ⟨ws, hws₂, hpy⟩ := itemsParse (v :: vs) lvl (r :: rs₂)
            (fun x hx => dumps_roundL (v :: vs) x hx)
            (nodupKeysL_mem hwfL) hL (by simp) f (by omega) rest
          refine ⟨.array ws, ?_, ?_⟩
          · rw [htext, parseValue_lbrack_items f hws hhd₂, hws₂]
            rfl
          · rw [show pyEqV (.array ws) (.array (v :: vs)) = pyEqL ws (v :: vs)
              from rfl]
            exact hpy
  | .dict [] => by
      intro _ lvl out hdump fuel hfuel rest hrest
      rw [show dumpsV lvl (.dict []) = some ("\x7b\x7d".data) from rfl] at hdump
      injection hdump with hdump
      subst hdump
      obtain ⟨f, rfl⟩ : ∃ f, fuel = f + 1 := ⟨fuel - 1, by omega⟩
      refine ⟨.dict [], ?_, rfl⟩
      rw [show ("\x7b\x7d".data ++ rest : List Char) =
        '\x7b' :: ('\x7d' :: rest) from rfl]
      rw [parseValue_lbrace, skipWs_cons_not_ws (by decide)]
      rfl
  | .dict (e :: es) => by
      intro hwf lvl out hdump fuel hfuel rest hrest
      rw [show dumpsV lvl (.dict (e :: es)) =
        (dumpsKV (lvl + 1) (e :: es)).bind fun rs => some (dictBody lvl rs)
        from rfl] at hdump
      cases hKV : dumpsKV (lvl + 1) (e :: es) with
      | none => rw [hKV] at hdump; exact absurd hdump (by simp)
      | some rs =>
          rw [hKV] at hdump
          simp only [Option.some_bind, Option.some.injEq] at hdump
          subst hdump
          obtain ⟨f, rfl⟩ : ∃ f, fuel = f + 1 := ⟨fuel - 1, by omega⟩
          have hwf₂ : keysNodup ((e :: es).map Prod.fst) = true ∧
              nodupKeysKV (e :: es) = true := by
            have h₁ : (keysNodup ((e :: es).map Prod.fst) &&
                nodupKeysKV (e :: es)) = true := hwf
            rw [Bool.and_eq_true] at h₁
            exact h₁
          have hfa := dumpsKV_forall₂ (lvl + 1) (e :: es) rs hKV
          have hfs := forall₂_sortByKey (fun p q h => h.1) hfa
          cases hsq : sortByKey rs with
          | nil =>
              have h₁ : rs.length = 0 := by
                have h₂ := (List.perm_insertionSort keyRel rs).length_eq
                rw [show List.insertionSort keyRel rs = sortByKey rs from rfl,
                  hsq] at h₂
                simpa using h₂.symm
              have h₃ := hfa.length_eq
              rw [h₁] at h₃
              simp at h₃
          | cons q qs₂ =>
              rw [hsq] at hfs
              have hml : ∃ Y, memberLine q = '"' :: Y := ⟨_, rfl⟩
              obtain ⟨Y, hY⟩ := hml
              obtain ⟨X, hX⟩ := joinSep_cons_append
                (',' :: newlineIndent (lvl + 1)) (memberLine q)
                (qs₂.map memberLine) (newlineIndent lvl ++ '\x7d' :: rest)
              have hX₂ : joinSep (',' :: newlineIndent (lvl + 1))
                  (memberLine q :: qs₂.map memberLine) ++
                  (newlineIndent lvl ++ '\x7d' :: rest) = '"' :: (Y ++ X) := by
                rw [hX, hY, List.cons_append]
              have htext : dictBody lvl rs ++ rest =
                  '\x7b' :: (newlineIndent (lvl + 1) ++
                    (joinSep (',' :: newlineIndent (lvl + 1))
                      (memberLine q :: qs₂.map memberLine) ++
                      (newlineIndent lvl ++ '\x7d' :: rest))) := by
                simp [dictBody, hsq, List.append_assoc]
              have hws : skipWs (newlineIndent (lvl + 1) ++
                  (joinSep (',' :: newlineIndent (lvl + 1))
                    (memberLine q :: qs₂.map memberLine) ++
                    (newlineIndent lvl ++ '\x7d' :: rest))) =
                  joinSep (',' :: newlineIndent (lvl + 1))
                    (memberLine q :: qs₂.map memberLine) ++
                    (newlineIndent lvl ++ '\x7d' :: rest) := by
                rw [skipWs_nlInd, hX₂, skipWs_cons_not_ws (by decide), ← hX₂]
              have hhd₂ : ∀ rr, joinSep (',' :: newlineIndent (lvl + 1))
                  (memberLine q :: qs₂.map memberLine) ++
                  (newlineIndent lvl ++ '\x7d' :: rest) ≠ '\x7d' :: rr := by
                intro rr hcontra
                rw [hX₂] at hcontra
                injection hcontra with h₃ _
                exact absurd h₃ (by decide)
              have hlnl₁ : (newlineIndent (lvl + 1)).length = 1 + 4 * (lvl + 1) := by
                rw [newlineIndent, List.length_cons, indentChars,
                  List.length_replicate]
                omega
              have hlnl₀ : (newlineIndent lvl).length = 1 + 4 * lvl := by
                rw [newlineIndent, List.length_cons, indentChars,
                  List.length_replicate]
                omega
              have hldict : (dictBody lvl rs).length =
                  2 + (newlineIndent (lvl + 1)).length +
                    (joinSep (',' :: newlineIndent (lvl + 1))
                      (memberLine q :: qs₂.map memberLine)).length +
                    (newlineIndent lvl).length := by
                have h₁ := congrArg List.length htext
                simp only [List.length_append, List.length_cons] at h₁
                omega
              have hsne : sortByKey (e :: es) ≠ [] := by
                intro hnil
                have h₁ := (List.perm_insertionSort keyRel (e :: es)).length_eq
                rw [show List.insertionSort keyRel (e :: es) = sortByKey (e :: es)
                  from rfl, hnil] at h₁
                simp at h₁
              obtain ⟨ps, hps, hpf⟩ := membersParse (sortByKey (e :: es)) lvl
                (q :: qs₂)
                (fun x hx => dumps_roundKV (e :: es) x
                  ((List.perm_insertionSort keyRel (e :: es)).mem_iff.mp hx))
                (fun x hx => nodupKeysKV_mem hwf₂.2 x
                  ((List.perm_insertionSort keyRel (e :: es)).mem_iff.mp hx))
                hfs hsne f (by rw [List.map_cons]; omega) rest
              rw [List.map_cons] at hps
              refine ⟨.dict ps, ?_, pyEqV_dict_of_sorted hwf₂.1 hpf⟩
              rw [htext, parseValue_lbrace_members f hws hhd₂, hps]
              rfl

/-- `RoundP` for every item of a sequence. -/
theorem dumps_roundL : ∀ (vs : List TreeValue), ∀ v ∈ vs, RoundP v
  | [] => by
      intro v hv
      exact absurd hv (by simp)
  | x :: xs => by
      intro v hv
      rcases List.mem_cons.mp hv with heq | hv₂
      · rw [heq]
        exact dumps_roundV x
      · exact dumps_roundL xs v hv₂

/-- `RoundP` for every value of a mapping. -/
theorem dumps_roundKV : ∀ (es : List (String × TreeValue)), ∀ e ∈ es, RoundP e.2
  | [] => by
      intro e he
      exact absurd he (by simp)
  | x :: xs => by
      intro e he
      rcases List.mem_cons.mp he with heq | he₂
      · rw [heq]
        exact dumps_roundV x.2
      · exact dumps_roundKV xs e he₂

end

/-- The round-trip at the top level: any tree whose mappings are uniquely
keyed (as every tree produced from a Python `dict` is) and that
`json.dumps` accepts is read back by `json.loads` as a Python-equal
value. -/
theorem json_roundtrip (v : TreeValue) (hnd : nodupKeysV v = true)
    (t : String) (hd : json_dumps v = some t) :
    ∃ w, json_loads t = some w ∧ pyEqV w v = true := by
  rw [json_dumps] at hd
  cases hout : dumpsV 0 v with
  | none => rw [hout] at hd; exact absurd hd (by simp)
  | some out =>
      rw [hout] at hd
      simp only [Option.map, Option.some.injEq] at hd
      subst hd
      obtain ⟨w, hw, hpy⟩ := dumps_roundV v hnd 0 out hout (out.length + 1)
        (by omega) [] restSafe_nil
      rw [List.append_nil] at hw
      refine ⟨w, ?_, hpy⟩
      unfold json_loads
      rw [show (⟨out⟩ : String).data = out from rfl, hw]
      rfl

/-- C3: the round-trip claim, corrected.  The JSON half holds universally:
every tree value that `json.dumps` accepts (with its mappings uniquely
keyed, as every tree read from a plist or a JSON document is) is read back
by `json.loads` as a Python-equal value — `json_roundtrip`, restated here.
The plist half fails: `plistlib._escape` rewrites a carriage return to a
line feed, so `parse_plist (write_plist (.str "\x0d"))` returns
`.str "\x0a"`, a different value, although carriage-return strings are
expressible in both formats (the JSON universal covers them).  And the
values named by the claim's "lossy mappings" are not mapped at all:
`json.dumps` raises `TypeError` on byte sequences and timestamps and
`plistlib` raises on `None`, so conversion fails with no output and no
round-trip result exists, fixed point or otherwise. -/
theorem round_trip_corrected :
    (∀ v : TreeValue, nodupKeysV v = true → ∀ t, json_dumps v = some t →
      ∃ w, json_loads t = some w ∧ pyEqV w v = true) ∧
    ((plist_dumps (TreeValue.str "\x0d")).bind fun t => readPlistModel t) =
      some (TreeValue.str "\x0a") ∧
    (("\x0a" : String) == "\x0d") = false ∧
    json_dumps (TreeValue.data [0]) = none ∧
    json_dumps (TreeValue.date "2004-11-28T14:33:00Z") = none ∧
    plist_dumps TreeValue.null = none :=
  ⟨fun v hnd t hd => json_roundtrip v hnd t hd, rfl, by decide, rfl, rfl, rfl⟩

/-- Witness for C3: the universal JSON round-trip applied at the spec's
two-key example, whose rendered text (sorted keys, 4-space indent) is
parsed back to a Python-equal tree. -/
theorem round_trip_corrected_witness :
    ∃ w, json_loads "\x7b\n    \"a\": 2,\n    \"b\": 1\n\x7d" = some w ∧
      pyEqV w (.dict [("b", .int 1), ("a", .int 2)]) = true :=
  round_trip_corrected.1 (.dict [("b", .int 1), ("a", .int 2)]) (by decide)
    "\x7b\n    \"a\": 2,\n    \"b\": 1\n\x7d" rfl

/-- Counterexample to C3 as stated: carriage-return strings are
expressible in both formats, yet the plist round-trip returns `.str
"\x0a"` for the input `.str "\x0d"` — a different value — and a byte
sequence has no round-trip result at all (`json.dumps` raises
`TypeError`), so it is not a fixed point of any lossy mapping. -/
theorem round_trip_counterexample :
    ((plist_dumps (TreeValue.str "\x0d")).bind fun t => readPlistModel t) =
      some (TreeValue.str "\x0a") ∧
    (("\x0a" : String) == "\x0d") = false ∧
    json_dumps (TreeValue.data [0]) = none :=
  ⟨rfl, by decide, rfl⟩

end PlistJson
